import Mathlib

/- Verification of the Study Navigator hierarchical tag aggregation engine.

   Shallow embedding of the add-on's core:
     - services/hierarchical_tag_counter.py (HierarchicalTagCounter)
     - services/base_export_service.py (yield classification, export assembly,
       gzip sink)

   Modelling conventions:
     - A Python string is a `List Char` (`Str`); tags are strings.
     - A Python set is a duplicate-free list kept in insertion order
       (`pyInsert` / `pyUpdate`); `len` is `List.length`, iteration is the
       list itself.
     - A Python dict is an association list in insertion order (`alGet`,
       `alSet`, `alGetD`); `d[k] = v` replaces in place or appends.
     - Python ints are `Int`; lengths are `Nat`; float division is modelled
       exactly over `ℚ`.
     - A card's `id`/`nid` fields are `Option Int`: `none` models a missing
       key or `None`, and Python truthiness makes both `none` and `some 0`
       falsy. -/

abbrev Str := List Char

abbrev Tag := Str

/-- Python set `s.add x`: no-op when the element is present, else append. -/

def pyInsert {α : Type} [DecidableEq α] (s : List α) (x : α) : List α :=
  if x ∈ s then s else s ++ [x]

/-- Python set `s.update t`: add every element of `t` in iteration order. -/

def pyUpdate {α : Type} [DecidableEq α] (s t : List α) : List α :=
  t.foldl pyInsert s

/-- Python dict lookup `d.get(k)` over an insertion-ordered association list. -/

def alGet {α β : Type} [DecidableEq α] (k : α) : List (α × β) → Option β
  | [] => none
  | p :: r => if p.1 = k then some p.2 else alGet k r

/-- Python dict lookup with default, `d.get(k, v)`. -/

def alGetD {α β : Type} [DecidableEq α] (d : List (α × β)) (k : α) (v : β) : β :=
  (alGet k d).getD v

/-- Python dict assignment `d[k] = v`: replace in place, else append. -/

def alSet {α β : Type} [DecidableEq α] (d : List (α × β)) (k : α) (v : β) :
    List (α × β) :=
  if (alGet k d).isSome then d.map (fun p => if p.1 = k then (k, v) else p)
  else d ++ [(k, v)]

/-- Helper for `splitCC`: prepend a character to the first piece. -/

def consHead (c : Char) : List Str → List Str
  | [] => [[c]]
  | h :: t => (c :: h) :: t

/-- Python `s.split('::')`: non-overlapping, scanning left to right. -/

def splitCC : Str → List Str
  | [] => [[]]
  | ':' :: ':' :: rest => [] :: splitCC rest
  | c :: rest => consHead c (splitCC rest)

/-- Python `'::'.join(parts)`. -/

def joinCC : List Str → Str
  | [] => []
  | [p] => p
  | p :: ps => p ++ ':' :: ':' :: joinCC ps

/-- Python `s.count('::')` (non-overlapping occurrences). -/

def countCC : Str → Nat
  | [] => 0
  | ':' :: ':' :: rest => countCC rest + 1
  | _ :: rest => countCC rest

/-- Python `'::' in s`. -/

def hasCC : Str → Bool
  | [] => false
  | ':' :: ':' :: _ => true
  | _ :: rest => hasCC rest

/-- The boundary conditions that make `joinCC` a right inverse of `splitCC`:
every piece is free of the separator, and no piece followed by a separator
ends in a colon. -/

def PartsOK : List Str → Prop
  | [] => True
  | [p] => countCC p = 0
  | p :: q :: ps => countCC p = 0 ∧ p.getLast? ≠ some ':' ∧ PartsOK (q :: ps)

/-- One card record as consumed by the counter and the export assembler
(`cards_by_tag` values).  Fields mirror the dict built in
`_load_all_data_optimized`; `id` and `nid` are `Option Int` so that a
missing key / `None` (and, through truthiness, `0`) can be represented. -/

structure PyCard where
  id : Option Int
  nid : Option Int
  deck : Str
  queue : Int
  due : Int
  ivl : Int
  factor : Int
  reps : Int
  lapses : Int
  suspended : Bool
  tags : List Tag
deriving DecidableEq

/-- One review-log entry (only the fields the export computation reads). -/

structure RevEntry where
  time : Int
  ease : Int
deriving DecidableEq

/-- Python truthiness of `card.get('id')`: `None`, a missing key and `0`
are all falsy. -/

def truthyInt : Option Int → Option Int
  | some n => if n = 0 then none else some n
  | none => none

/-- State of `HierarchicalTagCounter` (the unused `card_to_tags` map is
omitted: nothing downstream reads it). -/

structure CounterState where
  tag_hierarchy : List (Tag × List Tag)
  tag_to_cards : List (Tag × List Int)
  unique_card_ids : List Int
deriving DecidableEq

/-- `self.tag_hierarchy[parent].add(child)` on a `defaultdict(set)`. -/

def addEdge (hier : List (Tag × List Tag)) (parent child : Tag) :
    List (Tag × List Tag) :=
  alSet hier parent (pyInsert (alGetD hier parent []) child)

/-- `HierarchicalTagCounter._build_tag_hierarchy_fast`. -/

def buildTagHierarchyFast (hier : List (Tag × List Tag)) (tag : Tag) :
    List (Tag × List Tag) :=
  if hasCC tag = false then hier
  else
    let parts := splitCC tag
    (List.range (parts.length - 1)).foldl
      (fun h i => addEdge h (joinCC (parts.take (i + 1))) (joinCC (parts.take (i + 2))))
      hier

/-- Body of the `for tag, cards in cards_by_tag.items()` loop of
`build_hierarchy_from_cards`: one pass over the cards collects the tag's
truthy ids and extends the global unique-id set, then the tag's id set is
assigned and the hierarchy edges for the tag are added. -/

def buildStep (st : CounterState) (entry : Tag × List PyCard) : CounterState :=
  let z := entry.2.foldl
    (fun (pr : List Int × List Int) c =>
      match truthyInt c.id with
      | some n => (pyInsert pr.1 n, pyInsert pr.2 n)
      | none => pr)
    ([], st.unique_card_ids)
  { tag_hierarchy := buildTagHierarchyFast st.tag_hierarchy entry.1
    tag_to_cards := alSet st.tag_to_cards entry.1 z.1
    unique_card_ids := z.2 }

/-- `HierarchicalTagCounter.build_hierarchy_from_cards` on a fresh counter. -/

def buildHierarchyFromCards (input : List (Tag × List PyCard)) : CounterState :=
  input.foldl buildStep ⟨[], [], []⟩

/-- `HierarchicalTagCounter._get_parent_tags_fast`. -/

def getParentTagsFast (tag : Tag) : List Tag :=
  if hasCC tag = false then []
  else
    let parts := splitCC tag
    (List.range' 1 (parts.length - 1)).map fun i => joinCC (parts.take i)

/-- One entry of the `hierarchical_data` dict produced by
`calculate_hierarchical_counts`. -/

structure HEntry where
  direct_cards : List Int
  all_unique_cards : List Int
  direct_count : Nat
  hierarchical_count : Nat
  children_count : Int
  children_tags : List Tag
  parent_tags : List Tag
deriving DecidableEq

/-- The `for child in children` loop of `calculate_hierarchical_counts`:
union an already-computed child rollup into the accumulator, or fall back
to the child's direct set (flagging that the defensive branch ran). -/
def childFold (t2c : List (Tag × List Int)) (hd : List (Tag × HEntry))
    (children : List Tag) (base : List Int) (b : Bool) : List Int × Bool :=
  children.foldl
    (fun (pr : List Int × Bool) child =>
      match alGet child hd with
      | some e => (pyUpdate pr.1 e.all_unique_cards, pr.2)
      | none => (pyUpdate pr.1 (alGetD t2c child []), true))
    (base, b)

/-- Body of the `for tag in sorted_tags` loop of
`calculate_hierarchical_counts`.  The accumulator carries the
`hierarchical_data` dict plus a flag recording whether the defensive
`else` branch (child not yet in `hierarchical_data`) was ever taken. -/
def calcStep (t2c : List (Tag × List Int)) (hier : List (Tag × List Tag))
    (acc : List (Tag × HEntry) × Bool) (tag : Tag) : List (Tag × HEntry) × Bool :=
  let direct_cards := alGetD t2c tag []
  let z := childFold t2c acc.1 (alGetD hier tag []) direct_cards acc.2
  (alSet acc.1 tag
    { direct_cards := direct_cards
      all_unique_cards := z.1
      direct_count := direct_cards.length
      hierarchical_count := z.1.length
      children_count := (z.1.length : Int) - (direct_cards.length : Int)
      children_tags := alGetD hier tag []
      parent_tags := getParentTagsFast tag },
   z.2)

/-- `set(self.tag_to_cards.keys()) | set(self.tag_hierarchy.keys())`. -/

def allTagsList (t2c : List (Tag × List Int)) (hier : List (Tag × List Tag)) :
    List Tag :=
  pyUpdate (pyUpdate [] (t2c.map Prod.fst)) (hier.map Prod.fst)

/-- Stable insertion (descending by `countCC`) used to model Python's
stable `sorted(all_tags, key=lambda x: -x.count('::'))`. -/

def insertDesc (acc : List Tag) (t : Tag) : List Tag :=
  match acc with
  | [] => [t]
  | h :: s => if countCC t ≤ countCC h then h :: insertDesc s t else t :: h :: s

def sortByDepthDesc (l : List Tag) : List Tag := l.foldl insertDesc []

/-- `HierarchicalTagCounter.calculate_hierarchical_counts`, instrumented
with the fallback flag (second component). -/

def calculateHierarchicalCountsFB (st : CounterState) :
    List (Tag × HEntry) × Bool :=
  (sortByDepthDesc (allTagsList st.tag_to_cards st.tag_hierarchy)).foldl
    (calcStep st.tag_to_cards st.tag_hierarchy) ([], false)

/-- `HierarchicalTagCounter.calculate_hierarchical_counts`. -/

def calculateHierarchicalCounts (st : CounterState) : List (Tag × HEntry) :=
  (calculateHierarchicalCountsFB st).1

/-- ASCII case folding, the fragment of Python `str.lower` the yield
patterns exercise. -/

def toLowerChar (c : Char) : Char :=
  if 'A' ≤ c ∧ c ≤ 'Z' then Char.ofNat (c.toNat + 32) else c

def toLowerStr (s : Str) : Str := s.map toLowerChar

/-- Does `s` start with `pat`? -/

def startsWith : Str → Str → Bool
  | [], _ => true
  | _ :: _, [] => false
  | p :: ps, c :: cs => p == c && startsWith ps cs

/-- Python substring test `pat in s`. -/

def containsSub (pat : Str) : Str → Bool
  | [] => pat.isEmpty
  | c :: rest => startsWith pat (c :: rest) || containsSub pat rest

/-- `BaseExportService._is_high_yield_tag`. -/

def isHighYieldTag (tag : Str) : Bool :=
  let tl := toLowerStr tag
  (containsSub ['h', 'i', 'g', 'h'] tl && containsSub ['y', 'i', 'e', 'l', 'd'] tl)
    || containsSub ['h', 'i', 'g', 'h', 'y', 'i', 'e', 'l', 'd'] tl
    || containsSub ['l', 'o', 'w', 'y', 'i', 'e', 'l', 'd'] tl
    || containsSub ['l', 'o', 'w', 'e', 'r', 'y', 'i', 'e', 'l', 'd'] tl

/-- Result of `re.match(r'^([1-5])[-_]', s)`: the digit when the string
starts with `1`-`5` immediately followed by `-` or `_`, else 0. -/

def matchLevel : Str → Nat
  | d :: s :: _ =>
    if ('1' ≤ d && d ≤ '5') && (s == '-' || s == '_') then d.toNat - 48 else 0
  | _ => 0

/-- The `for part in parts` scan of `_get_yield_level`: first matching
segment wins. -/

def scanLevel : List Str → Nat
  | [] => 0
  | p :: ps => if matchLevel p ≠ 0 then matchLevel p else scanLevel ps

/-- `BaseExportService._get_yield_level`. -/

def getYieldLevel (tag : Str) : Nat :=
  if isHighYieldTag tag = false then 0
  else if matchLevel tag ≠ 0 then matchLevel tag
  else scanLevel (splitCC tag)

/-- One `unstudied_card_details` element. -/

structure CardDetail where
  card_id : Option Int
  note_id : Option Int
  deck : Str
  queue : Int
  due : Int
  suspended : Bool
deriving DecidableEq

/-- One `yield_stats[level]` bucket. -/

structure YieldStat where
  total : Nat
  new : Nat
  review : Nat
deriving DecidableEq

/-- `yield_stats = {level: {...0...} for level in range(1, 6)}`. -/

def ysInit : List YieldStat := [⟨0, 0, 0⟩, ⟨0, 0, 0⟩, ⟨0, 0, 0⟩, ⟨0, 0, 0⟩, ⟨0, 0, 0⟩]

/-- `yield_stats[lvl]` (levels 1-5 live at positions 0-4). -/

def ysAt (ys : List YieldStat) (lvl : Nat) : YieldStat := ys.getD (lvl - 1) ⟨0, 0, 0⟩

def ysSet (ys : List YieldStat) (lvl : Nat) (v : YieldStat) : List YieldStat :=
  ys.set (lvl - 1) v

/-- The `for t in card_tags: ... break` scan assigning `card_yield_level`. -/

def firstCardYieldLevel : List Tag → Nat
  | [] => 0
  | t :: ts => if getYieldLevel t > 0 then getYieldLevel t else firstCardYieldLevel ts

/-- One step of the parent-branch yield loop: resolve a rolled-up card id
through `cards_by_id` and bump that card's yield bucket. -/
def pyfStep (cardsById : Int → Option PyCard) (ys : List YieldStat)
    (cid : Int) : List YieldStat :=
  match cardsById cid with
  | none => ys
  | some c =>
    if firstCardYieldLevel c.tags > 0 then
      ysSet ys (firstCardYieldLevel c.tags)
        ⟨(ysAt ys (firstCardYieldLevel c.tags)).total + 1,
          (ysAt ys (firstCardYieldLevel c.tags)).new +
            (if c.reps == 0 then 1 else 0),
          (ysAt ys (firstCardYieldLevel c.tags)).review +
            (if c.queue == 2 then 1 else 0)⟩
    else ys

/-- The parent-branch loop of the yield computation: walk the rolled-up
card ids, resolve each through `cards_by_id`, and bump that card's yield
bucket. -/
def parentYieldFold (cardsById : Int → Option PyCard) (ids : List Int) :
    List YieldStat :=
  ids.foldl (pyfStep cardsById) ysInit

/-- `BaseExportService._get_cards_by_yield_level` (the `break` just
prevents double insertion, so this is a filter). -/

def getCardsByYieldLevel (cards : List PyCard) (lvl : Nat) : List PyCard :=
  cards.filter fun c => c.tags.any fun t => getYieldLevel t == lvl

/-- The leaf-branch loop of the yield computation. -/

def leafYieldStats (cards : List PyCard) : List YieldStat :=
  (List.range' 1 5).map fun lvl =>
    let lc := getCardsByYieldLevel cards lvl
    ⟨lc.length, lc.countP (fun c => c.reps == 0), lc.countP (fun c => c.queue == 2)⟩

/-- `self.revlog_by_card.get(cid, [])`, keyed through an `Option` id: the
dict's keys are integers, so a `None` id always hits the default. -/

def revlogsOfId (revlog : Int → List RevEntry) : Option Int → List RevEntry
  | some n => revlog n
  | none => []

/-- Lift a card predicate through `self.cards_by_id.get(card_id)`; a
missing card is skipped (the loops `continue`). -/

def lkP (cardsById : Int → Option PyCard) (p : PyCard → Bool) : Int → Bool :=
  fun cid =>
    match cardsById cid with
    | some c => p c
    | none => false

/-- Lift a card field through `self.cards_by_id.get(card_id)`; a missing
card contributes 0 (the loops `continue` before accumulating). -/

def lkV (cardsById : Int → Option PyCard) (f : PyCard → Int) : Int → Int :=
  fun cid =>
    match cardsById cid with
    | some c => f c
    | none => 0

/-- Result bundle of the averages block of `_create_export_data_fast`. -/

structure AvgStats where
  avg_ease : ℚ
  avg_interval : ℚ
  total_lapses : Int
  unique_notes : Nat
deriving DecidableEq

/-- `set(c.get("nid") for c in cards if c.get("nid"))` in card order. -/

def leafNoteIds (cards : List PyCard) : List Int :=
  cards.foldl
    (fun s c =>
      match truthyInt c.nid with
      | some n => pyInsert s n
      | none => s) []

/-- Leaf branch of the averages block (`total_cards > 0`). -/

def leafAvgs (cards : List PyCard) : AvgStats :=
  let total_factor := (cards.map fun c => c.factor).sum
  let total_interval := (cards.map fun c => c.ivl).sum
  let total_lapses := (cards.map fun c => c.lapses).sum
  let n := cards.length
  { avg_ease := (total_factor : ℚ) / (n : ℚ)
    avg_interval := (total_interval : ℚ) / (n : ℚ)
    total_lapses := total_lapses
    unique_notes := (leafNoteIds cards).length }

/-- The `if nid:` accumulation over resolved hierarchical cards. -/

def parentNoteIds (cardsById : Int → Option PyCard) (ids : List Int) : List Int :=
  ids.foldl
    (fun s cid =>
      match cardsById cid with
      | some c =>
        match truthyInt c.nid with
        | some n => pyInsert s n
        | none => s
      | none => s) []

/-- Parent branch of the averages block (zero direct cards, positive
rolled-up count): totals skip unresolvable ids, and the divisions are
guarded by `count_cards`. -/

def parentAvgs (cardsById : Int → Option PyCard) (ids : List Int) : AvgStats :=
  let count_cards := ids.countP fun cid => (cardsById cid).isSome
  let total_factor := (ids.map (lkV cardsById fun c => c.factor)).sum
  let total_interval := (ids.map (lkV cardsById fun c => c.ivl)).sum
  let total_lapses := (ids.map (lkV cardsById fun c => c.lapses)).sum
  { avg_ease := if 0 < count_cards then (total_factor : ℚ) / (count_cards : ℚ) else 0
    avg_interval :=
      if 0 < count_cards then (total_interval : ℚ) / (count_cards : ℚ) else 0
    total_lapses := total_lapses
    unique_notes := (parentNoteIds cardsById ids).length }

/-- Result bundle of the review-data block. -/

structure RevStats where
  total_reviews : Nat
  total_time_ms : Int
  avg_time_ms : ℚ
  again_count : Nat
  hard_count : Nat
  good_count : Nat
  easy_count : Nat
deriving DecidableEq

/-- Shared tail of the review-data block, over the gathered `all_revlogs`
list; the average is guarded by `if total_reviews else 0`. -/

def revStatsOf (logs : List RevEntry) : RevStats :=
  let total_reviews := logs.length
  let total_time_ms := (logs.map fun lg => lg.time).sum
  { total_reviews := total_reviews
    total_time_ms := total_time_ms
    avg_time_ms :=
      if 0 < total_reviews then (total_time_ms : ℚ) / (total_reviews : ℚ) else 0
    again_count := logs.countP fun lg => lg.ease == 1
    hard_count := logs.countP fun lg => lg.ease == 2
    good_count := logs.countP fun lg => lg.ease == 3
    easy_count := logs.countP fun lg => lg.ease == 4 }

/-- All-zero bundles for the empty branches. -/

def zeroAvgs : AvgStats := ⟨0, 0, 0, 0⟩

def zeroRevs : RevStats := ⟨0, 0, 0, 0, 0, 0, 0⟩

/-- Truthiness of `hierarchical_info and hierarchical_info.get('hierarchical_count', 0) > 0`:
the looked-up dict is empty (`none`) or its stored count is positive. -/
def hcPosOf : Option HEntry → Bool
  | some e => decide (0 < e.hierarchical_count)
  | none => false

/-- `hierarchical_info.get('all_unique_cards', set())`. -/
def rollupOf (hinfo : Option HEntry) : List Int :=
  (hinfo.map fun e => e.all_unique_cards).getD []

/-- The three-way averages block of `_create_export_data_fast`. -/
def avgsOf (cb : Int → Option PyCard) (cards : List PyCard)
    (hinfo : Option HEntry) : AvgStats :=
  if 0 < cards.length then leafAvgs cards
  else if hcPosOf hinfo then parentAvgs cb (rollupOf hinfo)
  else zeroAvgs

/-- The three-way review-data block of `_create_export_data_fast`. -/
def revsOf (rv : Int → List RevEntry) (cards : List PyCard)
    (hinfo : Option HEntry) : RevStats :=
  if 0 < cards.length then revStatsOf (cards.flatMap fun c => revlogsOfId rv c.id)
  else if hcPosOf hinfo then revStatsOf ((rollupOf hinfo).flatMap rv)
  else zeroRevs

/-- One of the six state-count computations of
`_create_export_data_fast`: counted over the direct card list when there
are direct cards, over the resolved rolled-up ids when the tag is
parent-only, and 0 for an empty tag. -/
def stateCountOf (cb : Int → Option PyCard) (cards : List PyCard)
    (hinfo : Option HEntry) (p : PyCard → Bool) : Nat :=
  if cards.length == 0 then
    if hcPosOf hinfo then (rollupOf hinfo).countP (lkP cb p) else 0
  else cards.countP p

/-- The `yield_stats` computation: a yield tag attributes all its cards
to its own level; otherwise a parent-only node scans its rolled-up cards
and a leaf node scans its direct cards. -/
def yieldStatsOf (cb : Int → Option PyCard) (cards : List PyCard)
    (hinfo : Option HEntry) (tag : Tag) : List YieldStat :=
  if getYieldLevel tag > 0 then
    ysSet ysInit (getYieldLevel tag)
      ⟨cards.length, cards.countP (fun c => c.reps == 0),
        cards.countP (fun c => c.queue == 2)⟩
  else if hcPosOf hinfo && cards.length == 0 then
    parentYieldFold cb (rollupOf hinfo)
  else leafYieldStats cards

/-- The `unstudied_cards` computation (rolled-up whenever the rolled-up
count is positive; a missing card resolves to reps 0 and is counted). -/
def unstudiedOf (cb : Int → Option PyCard) (cards : List PyCard)
    (hinfo : Option HEntry) : Nat :=
  if hcPosOf hinfo then
    (rollupOf hinfo).countP fun cid =>
      match cb cid with
      | some c => c.reps == 0
      | none => true
  else cards.countP fun c => c.reps == 0

/-- The `unstudied_card_details` list (leaf records only). -/
def cardDetailsOf (cards : List PyCard) : List CardDetail :=
  if 0 < cards.length then
    (cards.filter fun c => c.reps == 0).map fun c =>
      ({ card_id := c.id, note_id := c.nid, deck := c.deck, queue := c.queue,
         due := c.due, suspended := c.suspended } : CardDetail)
  else []

/-- One export record (`tag_data`) of `_create_export_data_fast`.  The
constant `export_type` field is omitted; `service_name` and `timestamp`
are passed through from parameters. -/

structure TagRecord where
  tag_name : Tag
  service_name : Str
  total_cards : Nat
  unique_notes : Nat
  due_cards : Nat
  new_cards : Nat
  learning_cards : Nat
  review_cards : Nat
  mature_cards : Nat
  suspended_cards : Nat
  unstudied_cards : Nat
  high_yield_total_cards : Nat
  high_yield_new_cards : Nat
  high_yield_review_cards : Nat
  yield_1 : YieldStat
  yield_2 : YieldStat
  yield_3 : YieldStat
  yield_4 : YieldStat
  yield_5 : YieldStat
  hierarchical_total_cards : Nat
  children_cards : Int
  children_tags : List Tag
  parent_tags : List Tag
  avg_ease : ℚ
  avg_interval : ℚ
  total_lapses : Int
  total_reviews : Nat
  total_time_ms : Int
  avg_time_ms : ℚ
  again_count : Nat
  hard_count : Nat
  good_count : Nat
  easy_count : Nat
  unstudied_card_details : List CardDetail
  timestamp : Str
deriving DecidableEq

/-- The body of the `for tag in all_tags` loop of
`_create_export_data_fast`, producing one `tag_data` record. -/

def mkTagRecord (cardsById : Int → Option PyCard) (revlog : Int → List RevEntry)
    (serviceName tstamp : Str) (cardsByTag : List (Tag × List PyCard))
    (hd : List (Tag × HEntry)) (tag : Tag) : TagRecord :=
  let cards := alGetD cardsByTag tag []
  let hinfo := alGet tag hd
  let total_cards := cards.length
  -- `hierarchical_info and hierarchical_info.get('hierarchical_count', 0) > 0`
  let tagLvl := getYieldLevel tag
  let ys := yieldStatsOf cardsById cards hinfo tag
  let high_yield_total :=
    if tagLvl > 0 then total_cards
    else ((List.range' 1 5).map fun l => (ysAt ys l).total).sum
  let high_yield_new :=
    if tagLvl > 0 then (ysAt ys tagLvl).new
    else ((List.range' 1 5).map fun l => (ysAt ys l).new).sum
  let high_yield_review :=
    if tagLvl > 0 then (ysAt ys tagLvl).review
    else ((List.range' 1 5).map fun l => (ysAt ys l).review).sum
  let due_cards := stateCountOf cardsById cards hinfo
    fun c => decide (0 ≤ c.due) && !c.suspended
  let new_cards := stateCountOf cardsById cards hinfo fun c => c.reps == 0
  let learning_cards := stateCountOf cardsById cards hinfo fun c => c.queue == 1
  let review_cards := stateCountOf cardsById cards hinfo fun c => c.queue == 2
  let mature_cards := stateCountOf cardsById cards hinfo
    fun c => decide (21 < c.ivl)
  let suspended_cards := stateCountOf cardsById cards hinfo fun c => c.suspended
  let avgs : AvgStats := avgsOf cardsById cards hinfo
  let revs : RevStats := revsOf revlog cards hinfo
  -- unstudied count: rolled-up whenever the rolled-up count is positive
  let unstudied_cards := unstudiedOf cardsById cards hinfo
  let card_details := cardDetailsOf cards
  { tag_name := tag
    service_name := serviceName
    total_cards := total_cards
    unique_notes := avgs.unique_notes
    due_cards := due_cards
    new_cards := new_cards
    learning_cards := learning_cards
    review_cards := review_cards
    mature_cards := mature_cards
    suspended_cards := suspended_cards
    unstudied_cards := unstudied_cards
    high_yield_total_cards := high_yield_total
    high_yield_new_cards := high_yield_new
    high_yield_review_cards := high_yield_review
    yield_1 := ysAt ys 1
    yield_2 := ysAt ys 2
    yield_3 := ysAt ys 3
    yield_4 := ysAt ys 4
    yield_5 := ysAt ys 5
    hierarchical_total_cards := (hinfo.map fun e => e.hierarchical_count).getD total_cards
    children_cards := (hinfo.map fun e => e.children_count).getD 0
    children_tags := (hinfo.map fun e => e.children_tags).getD []
    parent_tags := (hinfo.map fun e => e.parent_tags).getD []
    avg_ease := avgs.avg_ease
    avg_interval := avgs.avg_interval
    total_lapses := avgs.total_lapses
    total_reviews := revs.total_reviews
    total_time_ms := revs.total_time_ms
    avg_time_ms := revs.avg_time_ms
    again_count := revs.again_count
    hard_count := revs.hard_count
    good_count := revs.good_count
    easy_count := revs.easy_count
    unstudied_card_details := card_details
    timestamp := tstamp }

/-- `BaseExportService._create_export_data_fast`: one record per tag in
`set(cards_by_tag.keys()) | set(hierarchical_data.keys())`. -/

def createExportDataFast (cardsById : Int → Option PyCard)
    (revlog : Int → List RevEntry) (serviceName tstamp : Str)
    (cardsByTag : List (Tag × List PyCard)) (hd : List (Tag × HEntry)) :
    List TagRecord :=
  (pyUpdate (pyUpdate [] (cardsByTag.map Prod.fst)) (hd.map Prod.fst)).map
    (mkTagRecord cardsById revlog serviceName tstamp cardsByTag hd)

/-- Steps 3-4 of `BaseExportService.export_data`: build the hierarchy from
the filtered tag-to-cards mapping, compute hierarchical counts, and
assemble the export records. -/

def exportPipeline (cardsById : Int → Option PyCard)
    (revlog : Int → List RevEntry) (serviceName tstamp : Str)
    (input : List (Tag × List PyCard)) : List TagRecord :=
  let st := buildHierarchyFromCards input
  createExportDataFast cardsById revlog serviceName tstamp input
    (calculateHierarchicalCounts st)

/-- Claim-side restatement of the yield-marker test: the lowercased label
contains both "high" and "yield", or contains "highyield", "lowyield" or
"loweryield". -/
def claimYieldMarker (tag : Str) : Bool :=
  let tl := toLowerStr tag
  (containsSub ['h', 'i', 'g', 'h'] tl && containsSub ['y', 'i', 'e', 'l', 'd'] tl)
    || containsSub ['h', 'i', 'g', 'h', 'y', 'i', 'e', 'l', 'd'] tl
    || containsSub ['l', 'o', 'w', 'y', 'i', 'e', 'l', 'd'] tl
    || containsSub ['l', 'o', 'w', 'e', 'r', 'y', 'i', 'e', 'l', 'd'] tl

/-- Claim-side restatement of the yield level: 0 for a non-marker; for a
marker, the digit 1-5 (followed by `-` or `_`) starting the whole label,
or, failing that, the digit starting the first (outermost) segment having
one; 0 when no segment has one. -/
def claimYieldLevel (tag : Str) : Nat :=
  if claimYieldMarker tag = false then 0
  else if matchLevel tag ≠ 0 then matchLevel tag
  else
    match (splitCC tag).find? (fun p => matchLevel p != 0) with
    | some p => matchLevel p
    | none => 0

/-- The write loop of `_compress_to_gzip_fast`: serialize records one per
line until done or until a record fails to serialize (the raised
exception aborts the loop with the lines so far already written). -/
def writeLoop {α : Type} (ser : α → Option Str) : List α → List Str → List Str × Bool
  | [], acc => (acc, true)
  | r :: rest, acc =>
    match ser r with
    | some line => writeLoop ser rest (acc ++ [line])
    | none => (acc, false)

/-- `BaseExportService._compress_to_gzip_fast` over an abstract file
system (a map from paths to file contents).  `openOk` models whether
`gzip.open(file_path, 'wb')` succeeds; a failed open raises before any
file exists, a serialization failure mid-loop leaves the partially
written file behind; the `except` branch prints and returns the empty
string, so the caller sees failure as `""` and no exception escapes. -/
def compressToGzipFast {α : Type} (ser : α → Option Str) (openOk : Bool)
    (fs : Str → Option (List Str)) (data : List α) (path : Str) :
    (Str → Option (List Str)) × Str :=
  if openOk then
    let z := writeLoop ser data []
    (fun q => if q = path then some z.1 else fs q, if z.2 then path else [])
  else (fs, [])

/-- The parent/child pairs `_build_tag_hierarchy_fast` generates for one
tag: consecutive join-of-prefixes of the split. -/
def genEdge (t p c : Tag) : Prop :=
  ∃ i : Nat, i + 2 ≤ (splitCC t).length ∧
    p = joinCC ((splitCC t).take (i + 1)) ∧ c = joinCC ((splitCC t).take (i + 2))

/-- `c` is a child of `p` in a hierarchy dict. -/
def childEdge (hier : List (Tag × List Tag)) (p c : Tag) : Prop :=
  c ∈ alGetD hier p []

/-- `d` is a strict descendant of `t`: reachable by one or more child
edges. -/
def descends (hier : List (Tag × List Tag)) (t d : Tag) : Prop :=
  Relation.TransGen (childEdge hier) t d

/-- A hierarchy dict has a key exactly for tags with a nonempty child
set (true of every dict `addEdge` builds). -/
def KeysNE (hier : List (Tag × List Tag)) : Prop :=
  ∀ p, p ∈ hier.map Prod.fst ↔ alGetD hier p [] ≠ []

/-- The truthy-id accumulation of `build_hierarchy_from_cards`. -/
def idFold (base : List Int) (cards : List PyCard) : List Int :=
  cards.foldl
    (fun s c =>
      match truthyInt c.id with
      | some n => pyInsert s n
      | none => s) base

/-- Correctness of one `hierarchical_data` entry, stated against the
final dict `hd`: the stored fields are the direct set, child list, parent
list and counts, and membership in the rolled-up set is membership in
the direct set or in an existing child entry's rolled-up set. -/
structure GoodEntry (t2c : List (Tag × List Int)) (hier : List (Tag × List Tag))
    (hd : List (Tag × HEntry)) (tag : Tag) (e : HEntry) : Prop where
  direct : e.direct_cards = alGetD t2c tag []
  children : e.children_tags = alGetD hier tag []
  parents : e.parent_tags = getParentTagsFast tag
  dcount : e.direct_count = e.direct_cards.length
  hcount : e.hierarchical_count = e.all_unique_cards.length
  ccount : e.children_count = (e.hierarchical_count : Int) - (e.direct_count : Int)
  nodup : e.all_unique_cards.Nodup
  mem_iff : ∀ x, x ∈ e.all_unique_cards ↔
    x ∈ e.direct_cards ∨ ∃ c e2, c ∈ alGetD hier tag [] ∧ alGet c hd = some e2 ∧
      x ∈ e2.all_unique_cards

/-- The entry `calcStep` writes for `tag`, given the rollup result. -/
def calcEntry (t2c : List (Tag × List Int)) (hier : List (Tag × List Tag))
    (tag : Tag) (roll : List Int) : HEntry :=
  { direct_cards := alGetD t2c tag []
    all_unique_cards := roll
    direct_count := (alGetD t2c tag []).length
    hierarchical_count := roll.length
    children_count := (roll.length : Int) - ((alGetD t2c tag []).length : Int)
    children_tags := alGetD hier tag []
    parent_tags := getParentTagsFast tag }

/-- Invariant of the `sorted_tags` fold: the dict has exactly the
processed tags as keys, every stored entry is correct (`GoodEntry`), and
the defensive-fallback flag is still down. -/
structure CalcInv (t2c : List (Tag × List Int)) (hier : List (Tag × List Tag))
    (done : List Tag) (acc : List (Tag × HEntry) × Bool) : Prop where
  keys : ∀ t, (alGet t acc.1).isSome = true ↔ t ∈ done
  good : ∀ t e, alGet t acc.1 = some e → GoodEntry t2c hier acc.1 t e
  flag : acc.2 = false

/-- A minimal card used by concrete witnesses. -/
def wCard (i : Int) : PyCard :=
  ⟨some i, some (10 + i), [], 0, 0, 0, 0, 0, 0, false, []⟩

def wTagA : Tag := ['A']

def wTagAB : Tag := ['A', ':', ':', 'B']

/-- Witness input: a single card with id 5 tagged `A::B`. -/
def wInput1 : List (Tag × List PyCard) := [(wTagAB, [wCard 5])]

/-- The `hierarchical_data` entry the pipeline computes for `A` on
`wInput1`. -/
def wEntryA : HEntry := ⟨[], [5], 0, 1, 1, [wTagAB], []⟩

def wCb : Int → Option PyCard := fun _ => none

def wRv : Int → List RevEntry := fun _ => []

/-- The record the pipeline produces for tag `A` on `wInput1` with empty
card/revlog stores. -/
def wRecA : TagRecord :=
  mkTagRecord wCb wRv [] [] wInput1
    (calculateHierarchicalCounts (buildHierarchyFromCards wInput1)) wTagA

def wCardNone : PyCard := ⟨none, none, [], 0, 0, 0, 0, 0, 0, false, []⟩

def wCardZero : PyCard := ⟨some 0, none, [], 0, 0, 0, 0, 0, 0, false, []⟩

/-- Input exercising falsy card ids: one tag carrying a card with a
missing id, a card with id 0 and a card with id 5. -/
def wInput10 : List (Tag × List PyCard) :=
  [(wTagA, [wCardNone, wCardZero, wCard 5])]

/-- Counterexample input for the parent-only output claim: the only card
under `A::B` has the falsy id 0. -/
def wInput2 : List (Tag × List PyCard) := [(wTagAB, [wCardZero])]

/-- The record the pipeline produces for the parent-only tag `A` on
`wInput2`. -/
def wRec2A : TagRecord :=
  mkTagRecord wCb wRv [] [] wInput2
    (calculateHierarchicalCounts (buildHierarchyFromCards wInput2)) wTagA

/-- A studied card (one repetition) with id 1 tagged `A`. -/
def wCardR1 : PyCard := ⟨some 1, some 11, [], 0, 0, 0, 0, 1, 0, false, [wTagA]⟩

/-- An unstudied card (zero repetitions) with id 2 tagged `A::B`. -/
def wCardR0 : PyCard := ⟨some 2, some 12, [], 0, 0, 0, 0, 0, 0, false, [wTagAB]⟩

def wCb6 : Int → Option PyCard := fun i =>
  if i = 1 then some wCardR1 else if i = 2 then some wCardR0 else none

/-- Input where tag `A` has a direct (studied) card and its child `A::B`
has an unstudied card. -/
def wInput6 : List (Tag × List PyCard) := [(wTagA, [wCardR1]), (wTagAB, [wCardR0])]

/-- The record the pipeline produces for tag `A` on `wInput6`. -/
def wRec6A : TagRecord :=
  mkTagRecord wCb6 wRv [] [] wInput6
    (calculateHierarchicalCounts (buildHierarchyFromCards wInput6)) wTagA

/-- A serializer that fails on every record except 0. -/
def wSer : Nat → Option Str := fun n => if n = 0 then some ['x'] else none

def wPath : Str := ['p']

/-- An initially empty file system. -/
def wFs0 : Str → Option (List Str) := fun _ => none

/-- Two pipeline inputs are permutations of each other: same distinct
tags in some order, and each tag mapped to a permutation of the same card
list. -/
def SamePermInput (in1 in2 : List (Tag × List PyCard)) : Prop :=
  (in1.map Prod.fst).Nodup ∧ (in2.map Prod.fst).Nodup ∧
    (in1.map Prod.fst).Perm (in2.map Prod.fst) ∧
    ∀ t, ((alGet t in1).getD []).Perm ((alGet t in2).getD [])

/-- Correspondence of hierarchical-data entries across two permuted runs:
all counts agree, the stored sets and lists agree up to permutation, and
the parent list agrees exactly. -/
structure HCorr (e1 e2 : HEntry) : Prop where
  direct : e1.direct_cards.Perm e2.direct_cards
  all : e1.all_unique_cards.Perm e2.all_unique_cards
  dcount : e1.direct_count = e2.direct_count
  hcount : e1.hierarchical_count = e2.hierarchical_count
  ccount : e1.children_count = e2.children_count
  children : e1.children_tags.Perm e2.children_tags
  parents : e1.parent_tags = e2.parent_tags

/-- Correspondence of optional entries. -/
def OCorr : Option HEntry → Option HEntry → Prop
  | none, none => True
  | some e1, some e2 => HCorr e1 e2
  | _, _ => False

def wTagAC : Tag := ['A', ':', ':', 'C']

def wIn4a : List (Tag × List PyCard) := [(wTagAB, [wCard 1]), (wTagAC, [wCard 2])]

def wIn4b : List (Tag × List PyCard) := [(wTagAC, [wCard 2]), (wTagAB, [wCard 1])]

/-- The record for tag `A` produced from `wIn4a`. -/
def wRec4aA : TagRecord :=
  mkTagRecord wCb wRv [] [] wIn4a
    (calculateHierarchicalCounts (buildHierarchyFromCards wIn4a)) wTagA

/-- The record for tag `A` produced from `wIn4b`. -/
def wRec4bA : TagRecord :=
  mkTagRecord wCb wRv [] [] wIn4b
    (calculateHierarchicalCounts (buildHierarchyFromCards wIn4b)) wTagA

/-- The truthy note-id accumulation of the leaf averages block
(`if nid: unique_notes.add(nid)` over the direct cards). -/
def nidFold (base : List Int) (cards : List PyCard) : List Int :=
  cards.foldl
    (fun s c =>
      match truthyInt c.nid with
      | some n => pyInsert s n
      | none => s) base

/-- The resolved truthy note-id accumulation of the parent averages block
(`if nid:` over the cards looked up from the rolled-up ids). -/
def pnidFold (cardsById : Int → Option PyCard) (base : List Int)
    (ids : List Int) : List Int :=
  ids.foldl
    (fun s cid =>
      match cardsById cid with
      | some c =>
        match truthyInt c.nid with
        | some n => pyInsert s n
        | none => s
      | none => s) base

/-- Field-by-field correspondence of two export records computed for the
same tag by two runs on permuted inputs: every scalar field is equal, and
the two list-valued fields (`children_tags`, read off a Python set, and
`unstudied_card_details`, derived from the card list) agree up to order. -/
structure RecCorr (r1 r2 : TagRecord) : Prop where
  tag_name : r1.tag_name = r2.tag_name
  service_name : r1.service_name = r2.service_name
  total_cards : r1.total_cards = r2.total_cards
  unique_notes : r1.unique_notes = r2.unique_notes
  due_cards : r1.due_cards = r2.due_cards
  new_cards : r1.new_cards = r2.new_cards
  learning_cards : r1.learning_cards = r2.learning_cards
  review_cards : r1.review_cards = r2.review_cards
  mature_cards : r1.mature_cards = r2.mature_cards
  suspended_cards : r1.suspended_cards = r2.suspended_cards
  unstudied_cards : r1.unstudied_cards = r2.unstudied_cards
  high_yield_total_cards : r1.high_yield_total_cards = r2.high_yield_total_cards
  high_yield_new_cards : r1.high_yield_new_cards = r2.high_yield_new_cards
  high_yield_review_cards : r1.high_yield_review_cards = r2.high_yield_review_cards
  yield_1 : r1.yield_1 = r2.yield_1
  yield_2 : r1.yield_2 = r2.yield_2
  yield_3 : r1.yield_3 = r2.yield_3
  yield_4 : r1.yield_4 = r2.yield_4
  yield_5 : r1.yield_5 = r2.yield_5
  hierarchical_total_cards : r1.hierarchical_total_cards = r2.hierarchical_total_cards
  children_cards : r1.children_cards = r2.children_cards
  children_tags : r1.children_tags.Perm r2.children_tags
  parent_tags : r1.parent_tags = r2.parent_tags
  avg_ease : r1.avg_ease = r2.avg_ease
  avg_interval : r1.avg_interval = r2.avg_interval
  total_lapses : r1.total_lapses = r2.total_lapses
  total_reviews : r1.total_reviews = r2.total_reviews
  total_time_ms : r1.total_time_ms = r2.total_time_ms
  avg_time_ms : r1.avg_time_ms = r2.avg_time_ms
  again_count : r1.again_count = r2.again_count
  hard_count : r1.hard_count = r2.hard_count
  good_count : r1.good_count = r2.good_count
  easy_count : r1.easy_count = r2.easy_count
  unstudied_card_details : r1.unstudied_card_details.Perm r2.unstudied_card_details
  timestamp : r1.timestamp = r2.timestamp

/- ==================== theorems ==================== -/

theorem mem_pyInsert {α : Type} [DecidableEq α] (s : List α) (x y : α) :
    y ∈ pyInsert s x ↔ y ∈ s ∨ y = x := by
  unfold pyInsert
  split
  · constructor
    · exact fun h => Or.inl h
    · rintro (h | rfl) <;> assumption
  · simp

theorem nodup_pyInsert {α : Type} [DecidableEq α] (s : List α) (x : α)
    (h : s.Nodup) : (pyInsert s x).Nodup := by
  unfold pyInsert
  split
  · exact h
  · simpa using List.Nodup.append h (List.nodup_singleton x) (by simpa using ‹x ∉ s›)

theorem mem_pyUpdate {α : Type} [DecidableEq α] (s t : List α) (y : α) :
    y ∈ pyUpdate s t ↔ y ∈ s ∨ y ∈ t := by
  induction t generalizing s with
  | nil => simp [pyUpdate]
  | cons a t ih =>
    show y ∈ pyUpdate (pyInsert s a) t ↔ _
    rw [ih, mem_pyInsert]
    simp only [List.mem_cons]
    tauto

theorem nodup_pyUpdate {α : Type} [DecidableEq α] (s t : List α)
    (h : s.Nodup) : (pyUpdate s t).Nodup := by
  induction t generalizing s with
  | nil => exact h
  | cons a t ih => exact ih _ (nodup_pyInsert s a h)

theorem alGet_append {α β : Type} [DecidableEq α] (d e : List (α × β)) (k : α) :
    alGet k (d ++ e) = Option.elim (alGet k d) (alGet k e) some := by
  induction d with
  | nil => simp [alGet]
  | cons p r ih =>
    by_cases h : p.1 = k <;> simp [alGet, h, ih]

theorem alGet_map_replace {α β : Type} [DecidableEq α] (d : List (α × β))
    (k : α) (v : β) (q : α) :
    alGet q (d.map (fun p => if p.1 = k then (k, v) else p)) =
      if q = k then (alGet k d).map (fun _ => v) else alGet q d := by
  induction d with
  | nil => simp [alGet]
  | cons p r ih =>
    by_cases hpk : p.1 = k
    · by_cases hqk : q = k
      · subst hqk
        simp [alGet, hpk, ih]
      · have hpq : ¬ p.1 = q := by rw [hpk]; exact fun h => hqk h.symm
        have hkq : ¬ k = q := fun h => hqk h.symm
        simp [alGet, hpk, hpq, hqk, hkq, ih]
    · by_cases hpq : p.1 = q
      · have hqk : ¬ q = k := by rw [← hpq]; exact hpk
        simp [alGet, hpk, hpq, hqk]
      · simp [alGet, hpk, hpq, ih]

theorem alGet_alSet {α β : Type} [DecidableEq α] (d : List (α × β)) (k : α)
    (v : β) (q : α) :
    alGet q (alSet d k v) = if q = k then some v else alGet q d := by
  unfold alSet
  split
  · rw [alGet_map_replace]
    rcases h : alGet k d with _ | b
    · simp_all
    · by_cases hqk : q = k <;> simp [hqk, h]
  · rw [alGet_append]
    rcases h : alGet q d with _ | b
    · by_cases hqk : q = k
      · subst hqk; simp [alGet, h]
      · have hkq : ¬ k = q := fun hh => hqk hh.symm
        simp [alGet, hkq, hqk, h]
    · by_cases hqk : q = k
      · subst hqk; simp_all
      · simp [h, hqk]

theorem alGet_isSome_iff {α β : Type} [DecidableEq α] (d : List (α × β)) (k : α) :
    (alGet k d).isSome = true ↔ k ∈ d.map Prod.fst := by
  induction d with
  | nil => simp [alGet]
  | cons p r ih =>
    simp only [alGet, List.map_cons, List.mem_cons]
    by_cases h : p.1 = k
    · simp [h]
    · rw [if_neg h, ih]
      constructor
      · exact fun hh => Or.inr hh
      · rintro (h2 | h2)
        · exact absurd h2.symm h
        · exact h2

theorem alGet_eq_none_of_not_mem {α β : Type} [DecidableEq α]
    (d : List (α × β)) (k : α) (h : k ∉ d.map Prod.fst) : alGet k d = none := by
  rcases hg : alGet k d with _ | b
  · rfl
  · exact absurd ((alGet_isSome_iff d k).mp (by simp [hg])) h

theorem consHead_ne_nil (c : Char) (l : List Str) : consHead c l ≠ [] := by
  cases l <;> simp [consHead]

theorem splitCC_cons_ne (c : Char) (rest : Str)
    (h : ∀ r, c = ':' → rest = ':' :: r → False) :
    splitCC (c :: rest) = consHead c (splitCC rest) := by
  rw [splitCC]
  exact h

theorem countCC_cons_ne (c : Char) (rest : Str)
    (h : ∀ r, c = ':' → rest = ':' :: r → False) :
    countCC (c :: rest) = countCC rest := by
  rw [countCC]
  exact h

theorem hasCC_cons_ne (c : Char) (rest : Str)
    (h : ∀ r, c = ':' → rest = ':' :: r → False) :
    hasCC (c :: rest) = hasCC rest := by
  rw [hasCC]
  exact h

theorem splitCC_ne_nil (s : Str) : splitCC s ≠ [] := by
  induction s using splitCC.induct with
  | case1 => simp [splitCC]
  | case2 rest ih => simp [splitCC]
  | case3 c rest h ih =>
    rw [splitCC_cons_ne c rest h]
    exact consHead_ne_nil c _

theorem length_consHead (c : Char) (l : List Str) (h : l ≠ []) :
    (consHead c l).length = l.length := by
  cases l with
  | nil => exact absurd rfl h
  | cons a t => simp [consHead]

theorem length_splitCC (s : Str) : (splitCC s).length = countCC s + 1 := by
  induction s using splitCC.induct with
  | case1 => simp [splitCC, countCC]
  | case2 rest ih => simp [splitCC, countCC, ih]
  | case3 c rest h ih =>
    rw [splitCC_cons_ne c rest h, countCC_cons_ne c rest h,
      length_consHead c _ (splitCC_ne_nil rest), ih]

theorem hasCC_false_iff (s : Str) : hasCC s = false ↔ countCC s = 0 := by
  induction s using splitCC.induct with
  | case1 => simp [hasCC, countCC]
  | case2 rest ih => simp [hasCC, countCC]
  | case3 c rest h ih => rw [hasCC_cons_ne c rest h, countCC_cons_ne c rest h, ih]

theorem joinCC_cons_ne (p : Str) (ps : List Str) (h : ps ≠ []) :
    joinCC (p :: ps) = p ++ ':' :: ':' :: joinCC ps := by
  cases ps with
  | nil => exact absurd rfl h
  | cons q t => rfl

theorem joinCC_consHead (c : Char) (l : List Str) (h : l ≠ []) :
    joinCC (consHead c l) = c :: joinCC l := by
  cases l with
  | nil => exact absurd rfl h
  | cons a t =>
    cases t with
    | nil => rfl
    | cons b t2 => rfl

theorem joinCC_splitCC (s : Str) : joinCC (splitCC s) = s := by
  induction s using splitCC.induct with
  | case1 => rfl
  | case2 rest ih =>
    show joinCC ([] :: splitCC rest) = _
    rw [joinCC_cons_ne _ _ (splitCC_ne_nil rest), ih]
    rfl
  | case3 c rest h ih =>
    rw [splitCC_cons_ne c rest h, joinCC_consHead c _ (splitCC_ne_nil rest), ih]

theorem splitCC_eq_single (p : Str) (h : countCC p = 0) : splitCC p = [p] := by
  induction p using splitCC.induct with
  | case1 => rfl
  | case2 rest ih => simp [countCC] at h
  | case3 c rest hc ih =>
    rw [countCC_cons_ne c rest hc] at h
    rw [splitCC_cons_ne c rest hc, ih h]
    rfl

theorem PartsOK_head (p : Str) (l : List Str) (h : PartsOK (p :: l)) :
    countCC p = 0 := by
  cases l with
  | nil => exact h
  | cons q t => exact h.1

theorem PartsOK_ends (p q : Str) (l : List Str) (h : PartsOK (p :: q :: l)) :
    p.getLast? ≠ some ':' := h.2.1

theorem PartsOK_tail (p q : Str) (l : List Str) (h : PartsOK (p :: q :: l)) :
    PartsOK (q :: l) := h.2.2

theorem PartsOK_mk (p : Str) (l : List Str) (h1 : countCC p = 0)
    (h2 : l ≠ [] → p.getLast? ≠ some ':') (h3 : PartsOK l) :
    PartsOK (p :: l) := by
  cases l with
  | nil => exact h1
  | cons q t => exact ⟨h1, h2 (by simp), h3⟩

theorem countCC_single (c : Char) : countCC [c] = 0 := by
  rw [countCC_cons_ne]
  · rfl
  · intro r _ hr
    exact List.noConfusion hr

theorem splitCC_partsOK (s : Str) : PartsOK (splitCC s) := by
  induction s using splitCC.induct with
  | case1 => exact rfl
  | case2 rest ih =>
    show PartsOK ([] :: splitCC rest)
    rcases hs : splitCC rest with _ | ⟨h1, t1⟩
    · exact absurd hs (splitCC_ne_nil rest)
    · refine PartsOK_mk _ _ rfl (fun _ => by simp) ?_
      rw [← hs]; exact ih
  | case3 c rest hc ih =>
    rw [splitCC_cons_ne c rest hc]
    rcases rest with _ | ⟨d, r2⟩
    · show PartsOK [[c]]
      exact countCC_single c
    · by_cases hd2 : d = ':' ∧ ∃ r, r2 = ':' :: r
      · -- rest starts with the separator
        obtain ⟨rfl, r, rfl⟩ := hd2
        have hcne : c ≠ ':' := fun hcc => hc (':' :: r) hcc rfl
        show PartsOK (consHead c ([] :: splitCC r))
        show PartsOK ([c] :: splitCC r)
        refine PartsOK_mk _ _ (countCC_single c) ?_ ?_
        · intro _
          simp [hcne]
        · have hthis := ih
          rw [show splitCC (':' :: ':' :: r) = [] :: splitCC r from rfl] at hthis
          rcases hs : splitCC r with _ | ⟨h1, t1⟩
          · exact absurd hs (splitCC_ne_nil r)
          · rw [hs] at hthis
            exact PartsOK_tail _ _ _ hthis
      · -- rest begins with an ordinary character
        have hside : ∀ r, d = ':' → r2 = ':' :: r → False := by
          intro r h1 h2
          exact hd2 ⟨h1, r, h2⟩
        have hsplit : splitCC (d :: r2) = consHead d (splitCC r2) :=
          splitCC_cons_ne d r2 hside
        rcases hs2 : splitCC r2 with _ | ⟨h2, t2⟩
        · exact absurd hs2 (splitCC_ne_nil r2)
        · rw [hs2] at hsplit
          have ihx := ih
          rw [hsplit] at ihx ⊢
          show PartsOK ((c :: d :: h2) :: t2)
          have hdh : countCC (d :: h2) = 0 := PartsOK_head _ _ ihx
          have hcd : ∀ r, c = ':' → d :: h2 = ':' :: r → False := by
            intro r hc1 hr
            injection hr with hd hrest
            exact hc r2 hc1 (by rw [hd])
          have hcdh : countCC (c :: d :: h2) = 0 := by
            rw [countCC_cons_ne c (d :: h2) hcd]
            exact hdh
          refine PartsOK_mk _ _ hcdh ?_ ?_
          · intro ht2
            rcases t2 with _ | ⟨q, ps⟩
            · exact absurd rfl ht2
            · rw [List.getLast?_cons_cons]
              exact PartsOK_ends _ _ _ ihx
          · rcases t2 with _ | ⟨q, ps⟩
            · exact trivial
            · exact PartsOK_tail _ _ _ ihx

theorem splitCC_append_sep (p rest : Str) (h1 : countCC p = 0)
    (h2 : p.getLast? ≠ some ':') :
    splitCC (p ++ ':' :: ':' :: rest) = p :: splitCC rest := by
  induction p with
  | nil => rfl
  | cons c p2 ih =>
    have hstep : ∀ r, c = ':' → p2 ++ ':' :: ':' :: rest = ':' :: r → False := by
      intro r hc hr
      rcases p2 with _ | ⟨d, p3⟩
      · simp [hc] at h2
      · have hd : d = ':' := by
          have hx : d :: (p3 ++ ':' :: ':' :: rest) = ':' :: r := by simpa using hr
          exact (List.cons_eq_cons.mp hx).1
        rw [hc, hd] at h1
        simp [countCC] at h1
    have hp2c : countCC p2 = 0 := by
      have hside : ∀ r, c = ':' → p2 = ':' :: r → False := by
        intro r hc hp
        rw [hc, hp] at h1
        simp [countCC] at h1
      rw [countCC_cons_ne c p2 hside] at h1
      exact h1
    have hp2e : p2.getLast? ≠ some ':' := by
      rcases p2 with _ | ⟨d, p3⟩
      · simp
      · rw [List.getLast?_cons_cons] at h2
        exact h2
    have hsp : splitCC ((c :: p2) ++ ':' :: ':' :: rest)
        = consHead c (splitCC (p2 ++ ':' :: ':' :: rest)) := by
      rw [List.cons_append]
      exact splitCC_cons_ne c _ hstep
    rw [hsp, ih hp2c hp2e]
    rfl

theorem splitCC_joinCC (ps : List Str) (hne : ps ≠ []) (hok : PartsOK ps) :
    splitCC (joinCC ps) = ps := by
  induction ps with
  | nil => exact absurd rfl hne
  | cons p l ih =>
    rcases l with _ | ⟨q, t⟩
    · exact splitCC_eq_single p (PartsOK_head _ _ hok)
    · rw [joinCC_cons_ne p (q :: t) (by simp)]
      rw [splitCC_append_sep p _ (PartsOK_head _ _ hok) (PartsOK_ends _ _ _ hok)]
      rw [ih (by simp) (PartsOK_tail _ _ _ hok)]

theorem PartsOK_take (ps : List Str) (k : Nat) (h : PartsOK ps) :
    PartsOK (ps.take k) := by
  induction ps generalizing k with
  | nil =>
    rw [List.take_nil]
    exact trivial
  | cons p l ih =>
    rcases k with _ | k2
    · exact trivial
    · rcases l with _ | ⟨q, t⟩
      · simpa using h
      · show PartsOK (p :: (q :: t).take k2)
        refine PartsOK_mk _ _ (PartsOK_head _ _ h) ?_ (ih k2 (PartsOK_tail _ _ _ h))
        intro _
        exact PartsOK_ends _ _ _ h

theorem take_splitCC_ne_nil (s : Str) (k : Nat) (hk : 1 ≤ k) :
    (splitCC s).take k ≠ [] := by
  have h1 : 0 < (splitCC s).length := List.length_pos.mpr (splitCC_ne_nil s)
  intro h
  have h2 := congrArg List.length h
  rw [List.length_take] at h2
  simp only [List.length_nil] at h2
  rcases Nat.min_eq_zero_iff.mp h2 with h3 | h3 <;> omega

theorem splitCC_join_take (s : Str) (k : Nat) (hk : 1 ≤ k) :
    splitCC (joinCC ((splitCC s).take k)) = (splitCC s).take k :=
  splitCC_joinCC _ (take_splitCC_ne_nil s k hk)
    (PartsOK_take _ k (splitCC_partsOK s))

theorem countCC_join_take (s : Str) (k : Nat) (hk1 : 1 ≤ k)
    (hk2 : k ≤ (splitCC s).length) :
    countCC (joinCC ((splitCC s).take k)) = k - 1 := by
  have hlen := congrArg List.length (splitCC_join_take s k hk1)
  rw [length_splitCC, List.length_take] at hlen
  omega

theorem joinCC_take_length (s : Str) :
    joinCC ((splitCC s).take (splitCC s).length) = s := by
  rw [List.take_length]
  exact joinCC_splitCC s

theorem pyInsert_ne_nil {α : Type} [DecidableEq α] (s : List α) (x : α) :
    pyInsert s x ≠ [] := by
  unfold pyInsert
  split
  · intro h
    subst h
    simp_all
  · simp

theorem alGetD_addEdge (hier : List (Tag × List Tag)) (q d p : Tag) :
    alGetD (addEdge hier q d) p [] =
      if p = q then pyInsert (alGetD hier q []) d else alGetD hier p [] := by
  unfold addEdge alGetD
  rw [alGet_alSet]
  by_cases hpq : p = q <;> simp [hpq]

theorem mem_addEdge (hier : List (Tag × List Tag)) (q d p c : Tag) :
    c ∈ alGetD (addEdge hier q d) p [] ↔
      c ∈ alGetD hier p [] ∨ (p = q ∧ c = d) := by
  rw [alGetD_addEdge]
  by_cases hpq : p = q
  · subst hpq
    rw [if_pos rfl, mem_pyInsert]
    simp
  · simp [hpq]

theorem keys_addEdge (hier : List (Tag × List Tag)) (q d p : Tag) :
    p ∈ (addEdge hier q d).map Prod.fst ↔ p ∈ hier.map Prod.fst ∨ p = q := by
  rw [← alGet_isSome_iff]
  unfold addEdge
  rw [alGet_alSet]
  by_cases hpq : p = q
  · simp [hpq]
  · simp [hpq, alGet_isSome_iff]

theorem KeysNE_addEdge (hier : List (Tag × List Tag)) (q d : Tag)
    (h : KeysNE hier) : KeysNE (addEdge hier q d) := by
  intro p
  rw [keys_addEdge, alGetD_addEdge]
  by_cases hpq : p = q
  · simp [hpq, pyInsert_ne_nil]
  · simp only [if_neg hpq, hpq, or_false]
    exact h p

theorem mem_edge_foldl (parts : List Str) (l : List Nat)
    (hier : List (Tag × List Tag)) (p c : Tag) :
    c ∈ alGetD (l.foldl
        (fun h i =>
          addEdge h (joinCC (parts.take (i + 1))) (joinCC (parts.take (i + 2))))
        hier) p [] ↔
      c ∈ alGetD hier p [] ∨
        ∃ i ∈ l, p = joinCC (parts.take (i + 1)) ∧ c = joinCC (parts.take (i + 2)) := by
  induction l generalizing hier with
  | nil => simp
  | cons a l ih =>
    rw [List.foldl_cons, ih, mem_addEdge]
    constructor
    · rintro ((h | ⟨h1, h2⟩) | ⟨i, hi, h1, h2⟩)
      · exact Or.inl h
      · exact Or.inr ⟨a, by simp, h1, h2⟩
      · exact Or.inr ⟨i, by simp [hi], h1, h2⟩
    · rintro (h | ⟨i, hi, h1, h2⟩)
      · exact Or.inl (Or.inl h)
      · rcases List.mem_cons.mp hi with rfl | hi2
        · exact Or.inl (Or.inr ⟨h1, h2⟩)
        · exact Or.inr ⟨i, hi2, h1, h2⟩

theorem KeysNE_edge_foldl (parts : List Str) (l : List Nat)
    (hier : List (Tag × List Tag)) (h : KeysNE hier) :
    KeysNE (l.foldl
      (fun h i =>
        addEdge h (joinCC (parts.take (i + 1))) (joinCC (parts.take (i + 2))))
      hier) := by
  induction l generalizing hier with
  | nil => exact h
  | cons a l ih => exact ih _ (KeysNE_addEdge _ _ _ h)

theorem mem_hier_bthf (hier : List (Tag × List Tag)) (t p c : Tag) :
    c ∈ alGetD (buildTagHierarchyFast hier t) p [] ↔
      c ∈ alGetD hier p [] ∨ genEdge t p c := by
  unfold buildTagHierarchyFast
  by_cases hcc : hasCC t = false
  · rw [if_pos hcc]
    have hno : ¬ genEdge t p c := by
      rintro ⟨i, hi, _, _⟩
      rw [length_splitCC, (hasCC_false_iff t).mp hcc] at hi
      omega
    simp [hno]
  · rw [if_neg hcc, mem_edge_foldl]
    have hlen : 1 ≤ (splitCC t).length := by
      have := List.length_pos.mpr (splitCC_ne_nil t)
      omega
    constructor
    · rintro (h | ⟨i, hi, h1, h2⟩)
      · exact Or.inl h
      · exact Or.inr ⟨i, by rw [List.mem_range] at hi; omega, h1, h2⟩
    · rintro (h | ⟨i, hi, h1, h2⟩)
      · exact Or.inl h
      · exact Or.inr ⟨i, by rw [List.mem_range]; omega, h1, h2⟩

theorem KeysNE_bthf (hier : List (Tag × List Tag)) (t : Tag) (h : KeysNE hier) :
    KeysNE (buildTagHierarchyFast hier t) := by
  unfold buildTagHierarchyFast
  by_cases hcc : hasCC t = false
  · rw [if_pos hcc]; exact h
  · rw [if_neg hcc]; exact KeysNE_edge_foldl _ _ _ h

theorem hier_foldl_buildStep (l : List (Tag × List PyCard)) (st : CounterState)
    (p c : Tag) :
    c ∈ alGetD (l.foldl buildStep st).tag_hierarchy p [] ↔
      c ∈ alGetD st.tag_hierarchy p [] ∨ ∃ e ∈ l, genEdge e.1 p c := by
  induction l generalizing st with
  | nil => simp
  | cons a l ih =>
    rw [List.foldl_cons, ih]
    have hst : (buildStep st a).tag_hierarchy = buildTagHierarchyFast st.tag_hierarchy a.1 := rfl
    rw [hst, mem_hier_bthf]
    constructor
    · rintro ((h | h) | ⟨e, he, hg⟩)
      · exact Or.inl h
      · exact Or.inr ⟨a, by simp, h⟩
      · exact Or.inr ⟨e, by simp [he], hg⟩
    · rintro (h | ⟨e, he, hg⟩)
      · exact Or.inl (Or.inl h)
      · rcases List.mem_cons.mp he with rfl | he2
        · exact Or.inl (Or.inr hg)
        · exact Or.inr ⟨e, he2, hg⟩

theorem mem_hier_build (input : List (Tag × List PyCard)) (p c : Tag) :
    c ∈ alGetD (buildHierarchyFromCards input).tag_hierarchy p [] ↔
      ∃ e ∈ input, genEdge e.1 p c := by
  unfold buildHierarchyFromCards
  rw [hier_foldl_buildStep]
  simp [alGetD, alGet]

theorem KeysNE_foldl_buildStep (l : List (Tag × List PyCard))
    (st : CounterState) (h : KeysNE st.tag_hierarchy) :
    KeysNE ((l.foldl buildStep st).tag_hierarchy) := by
  induction l generalizing st with
  | nil => exact h
  | cons a l ih => exact ih _ (KeysNE_bthf _ _ h)

theorem KeysNE_build (input : List (Tag × List PyCard)) :
    KeysNE (buildHierarchyFromCards input).tag_hierarchy := by
  refine KeysNE_foldl_buildStep input ⟨[], [], []⟩ ?_
  intro p
  simp [alGetD, alGet]

theorem genEdge_depth (t p c : Tag) (h : genEdge t p c) :
    countCC c = countCC p + 1 := by
  obtain ⟨i, hi, hp, hc⟩ := h
  rw [hp, hc, countCC_join_take t (i + 1) (by omega) (by omega),
    countCC_join_take t (i + 2) (by omega) hi]
  omega

theorem genEdge_child_cases (t p c : Tag) (h : genEdge t p c) :
    c = t ∨ ∃ d, genEdge t c d := by
  obtain ⟨i, hi, hp, hc⟩ := h
  by_cases hend : i + 2 = (splitCC t).length
  · left
    rw [hc, hend, List.take_length, joinCC_splitCC]
  · right
    exact ⟨joinCC ((splitCC t).take (i + 3)), i + 1, by omega, hc, rfl⟩

theorem keys_alSet {α β : Type} [DecidableEq α] (d : List (α × β)) (k : α)
    (v : β) (q : α) :
    q ∈ (alSet d k v).map Prod.fst ↔ q ∈ d.map Prod.fst ∨ q = k := by
  rw [← alGet_isSome_iff, alGet_alSet]
  by_cases hqk : q = k
  · simp [hqk]
  · simp [hqk, alGet_isSome_iff]

theorem alGetD_alSet {α β : Type} [DecidableEq α] (d : List (α × β)) (k : α)
    (v : β) (q : α) (dflt : β) :
    alGetD (alSet d k v) q dflt = if q = k then v else alGetD d q dflt := by
  unfold alGetD
  rw [alGet_alSet]
  by_cases hqk : q = k <;> simp [hqk]

theorem buildIds_fst (cards : List PyCard) (b1 b2 : List Int) :
    (cards.foldl
      (fun (pr : List Int × List Int) c =>
        match truthyInt c.id with
        | some n => (pyInsert pr.1 n, pyInsert pr.2 n)
        | none => pr) (b1, b2)).1 = idFold b1 cards := by
  induction cards generalizing b1 b2 with
  | nil => rfl
  | cons a l ih =>
    simp only [idFold, List.foldl_cons]
    rcases h : truthyInt a.id with _ | n <;> simp only [h] <;> exact ih _ _

theorem buildIds_snd (cards : List PyCard) (b1 b2 : List Int) :
    (cards.foldl
      (fun (pr : List Int × List Int) c =>
        match truthyInt c.id with
        | some n => (pyInsert pr.1 n, pyInsert pr.2 n)
        | none => pr) (b1, b2)).2 = idFold b2 cards := by
  induction cards generalizing b1 b2 with
  | nil => rfl
  | cons a l ih =>
    simp only [idFold, List.foldl_cons]
    rcases h : truthyInt a.id with _ | n <;> simp only [h] <;> exact ih _ _

theorem buildStep_t2c (st : CounterState) (a : Tag × List PyCard) :
    (buildStep st a).tag_to_cards = alSet st.tag_to_cards a.1 (idFold [] a.2) := by
  unfold buildStep
  simp only [buildIds_fst]

theorem buildStep_unique (st : CounterState) (a : Tag × List PyCard) :
    (buildStep st a).unique_card_ids = idFold st.unique_card_ids a.2 := by
  unfold buildStep
  simp only [buildIds_snd]

theorem mem_idFold (cards : List PyCard) (base : List Int) (x : Int) :
    x ∈ idFold base cards ↔
      x ∈ base ∨ ∃ c ∈ cards, truthyInt c.id = some x := by
  induction cards generalizing base with
  | nil => simp [idFold]
  | cons a l ih =>
    simp only [idFold, List.foldl_cons]
    rcases h : truthyInt a.id with _ | n
    · show x ∈ idFold base l ↔ _
      rw [ih]
      constructor
      · rintro (hb | ⟨c, hc, ht⟩)
        · exact Or.inl hb
        · exact Or.inr ⟨c, by simp [hc], ht⟩
      · rintro (hb | ⟨c, hc, ht⟩)
        · exact Or.inl hb
        · rcases List.mem_cons.mp hc with rfl | hc2
          · rw [h] at ht
            exact absurd ht (by simp)
          · exact Or.inr ⟨c, hc2, ht⟩
    · show x ∈ idFold (pyInsert base n) l ↔ _
      rw [ih]
      constructor
      · rintro (hb | ⟨c, hc, ht⟩)
        · rcases (mem_pyInsert base n x).mp hb with hb2 | rfl
          · exact Or.inl hb2
          · exact Or.inr ⟨a, by simp, by rw [h]⟩
        · exact Or.inr ⟨c, by simp [hc], ht⟩
      · rintro (hb | ⟨c, hc, ht⟩)
        · exact Or.inl ((mem_pyInsert base n x).mpr (Or.inl hb))
        · rcases List.mem_cons.mp hc with rfl | hc2
          · rw [h] at ht
            have : n = x := by injection ht
            exact Or.inl ((mem_pyInsert base n x).mpr (Or.inr this.symm))
          · exact Or.inr ⟨c, hc2, ht⟩

theorem nodup_idFold (cards : List PyCard) (base : List Int) (h : base.Nodup) :
    (idFold base cards).Nodup := by
  induction cards generalizing base with
  | nil => exact h
  | cons a l ih =>
    simp only [idFold, List.foldl_cons]
    rcases ht : truthyInt a.id with _ | n
    · exact ih _ h
    · exact ih _ (nodup_pyInsert base n h)

theorem keys_t2c_foldl (l : List (Tag × List PyCard)) (st : CounterState) (k : Tag) :
    k ∈ ((l.foldl buildStep st).tag_to_cards).map Prod.fst ↔
      k ∈ st.tag_to_cards.map Prod.fst ∨ k ∈ l.map Prod.fst := by
  induction l generalizing st with
  | nil => simp
  | cons a l ih =>
    rw [List.foldl_cons, ih, buildStep_t2c, keys_alSet]
    simp only [List.map_cons, List.mem_cons]
    tauto

theorem keys_t2c_build (input : List (Tag × List PyCard)) (k : Tag) :
    k ∈ ((buildHierarchyFromCards input).tag_to_cards).map Prod.fst ↔
      k ∈ input.map Prod.fst := by
  unfold buildHierarchyFromCards
  rw [keys_t2c_foldl]
  simp

theorem alGet_t2c_foldl_not_mem (l : List (Tag × List PyCard))
    (st : CounterState) (k : Tag) (h : k ∉ l.map Prod.fst) :
    alGet k ((l.foldl buildStep st).tag_to_cards) = alGet k st.tag_to_cards := by
  induction l generalizing st with
  | nil => rfl
  | cons a l ih =>
    simp only [List.map_cons, List.mem_cons] at h
    push_neg at h
    rw [List.foldl_cons, ih _ h.2, buildStep_t2c, alGet_alSet, if_neg h.1]

theorem t2c_value_foldl (l : List (Tag × List PyCard)) (st : CounterState)
    (hnd : (l.map Prod.fst).Nodup) (k : Tag) (cs : List PyCard)
    (hin : (k, cs) ∈ l) :
    alGet k ((l.foldl buildStep st).tag_to_cards) = some (idFold [] cs) := by
  induction l generalizing st with
  | nil => exact absurd hin (by simp)
  | cons a l ih =>
    rw [List.map_cons, List.nodup_cons] at hnd
    rcases List.mem_cons.mp hin with rfl | hin2
    · rw [List.foldl_cons, alGet_t2c_foldl_not_mem l _ k hnd.1, buildStep_t2c,
        alGet_alSet, if_pos rfl]
    · exact List.foldl_cons _ _ ▸ ih _ hnd.2 hin2

theorem t2c_value_build (input : List (Tag × List PyCard))
    (hnd : (input.map Prod.fst).Nodup) (k : Tag) (cs : List PyCard)
    (hin : (k, cs) ∈ input) :
    alGet k (buildHierarchyFromCards input).tag_to_cards = some (idFold [] cs) :=
  t2c_value_foldl input _ hnd k cs hin

theorem t2c_value_nodup_foldl (l : List (Tag × List PyCard)) (st : CounterState)
    (h : ∀ k, (alGetD st.tag_to_cards k []).Nodup) (k : Tag) :
    (alGetD ((l.foldl buildStep st).tag_to_cards) k []).Nodup := by
  induction l generalizing st with
  | nil => exact h k
  | cons a l ih =>
    rw [List.foldl_cons]
    refine ih _ ?_
    intro q
    rw [buildStep_t2c, alGetD_alSet]
    by_cases hq : q = a.1
    · rw [if_pos hq]
      exact nodup_idFold _ _ List.nodup_nil
    · rw [if_neg hq]
      exact h q

theorem t2c_value_nodup (input : List (Tag × List PyCard)) (k : Tag) :
    (alGetD (buildHierarchyFromCards input).tag_to_cards k []).Nodup := by
  refine t2c_value_nodup_foldl input _ ?_ k
  intro q
  simp [alGetD, alGet]

theorem t2c_value_sub_foldl (l : List (Tag × List PyCard)) (st : CounterState)
    (k : Tag) (x : Int)
    (h : x ∈ alGetD ((l.foldl buildStep st).tag_to_cards) k []) :
    x ∈ alGetD st.tag_to_cards k [] ∨
      ∃ e ∈ l, ∃ c ∈ e.2, truthyInt c.id = some x := by
  induction l generalizing st with
  | nil => exact Or.inl h
  | cons a l ih =>
    rw [List.foldl_cons] at h
    rcases ih _ h with h2 | ⟨e, he, hc⟩
    · rw [buildStep_t2c, alGetD_alSet] at h2
      by_cases hk : k = a.1
      · rw [if_pos hk] at h2
        rcases (mem_idFold _ _ _).mp h2 with h3 | ⟨c, hc, ht⟩
        · exact absurd h3 (by simp)
        · exact Or.inr ⟨a, by simp, c, hc, ht⟩
      · rw [if_neg hk] at h2
        exact Or.inl h2
    · exact Or.inr ⟨e, by simp [he], hc⟩

theorem t2c_value_sub (input : List (Tag × List PyCard)) (k : Tag) (x : Int)
    (h : x ∈ alGetD (buildHierarchyFromCards input).tag_to_cards k []) :
    ∃ e ∈ input, ∃ c ∈ e.2, truthyInt c.id = some x := by
  rcases t2c_value_sub_foldl input _ k x h with h2 | h2
  · exact absurd h2 (by simp [alGetD, alGet])
  · exact h2

theorem mem_unique_foldl (l : List (Tag × List PyCard)) (st : CounterState) (x : Int) :
    x ∈ (l.foldl buildStep st).unique_card_ids ↔
      x ∈ st.unique_card_ids ∨ ∃ e ∈ l, ∃ c ∈ e.2, truthyInt c.id = some x := by
  induction l generalizing st with
  | nil => simp
  | cons a l ih =>
    rw [List.foldl_cons, ih, buildStep_unique, mem_idFold]
    constructor
    · rintro ((hb | ⟨c, hc, ht⟩) | ⟨e, he, hc⟩)
      · exact Or.inl hb
      · exact Or.inr ⟨a, by simp, c, hc, ht⟩
      · exact Or.inr ⟨e, by simp [he], hc⟩
    · rintro (hb | ⟨e, he, c, hc, ht⟩)
      · exact Or.inl (Or.inl hb)
      · rcases List.mem_cons.mp he with rfl | he2
        · exact Or.inl (Or.inr ⟨c, hc, ht⟩)
        · exact Or.inr ⟨e, he2, c, hc, ht⟩

theorem mem_unique_build (input : List (Tag × List PyCard)) (x : Int) :
    x ∈ (buildHierarchyFromCards input).unique_card_ids ↔
      ∃ e ∈ input, ∃ c ∈ e.2, truthyInt c.id = some x := by
  unfold buildHierarchyFromCards
  rw [mem_unique_foldl]
  simp

theorem insertDesc_perm (acc : List Tag) (t : Tag) :
    (insertDesc acc t).Perm (t :: acc) := by
  induction acc with
  | nil => exact List.Perm.refl _
  | cons h s ih =>
    unfold insertDesc
    split
    · exact ((ih.cons h).trans (List.Perm.swap t h s)).symm.symm
    · exact List.Perm.refl _

theorem foldl_insertDesc_perm (l acc : List Tag) :
    (l.foldl insertDesc acc).Perm (l ++ acc) := by
  induction l generalizing acc with
  | nil => simp
  | cons a l ih =>
    rw [List.foldl_cons]
    refine (ih (insertDesc acc a)).trans ?_
    refine (List.Perm.append_left l (insertDesc_perm acc a)).trans ?_
    exact List.perm_middle

theorem sortByDepthDesc_perm (l : List Tag) : (sortByDepthDesc l).Perm l := by
  unfold sortByDepthDesc
  have h := foldl_insertDesc_perm l []
  rw [List.append_nil] at h
  exact h

theorem mem_sortByDepthDesc (l : List Tag) (x : Tag) :
    x ∈ sortByDepthDesc l ↔ x ∈ l :=
  (sortByDepthDesc_perm l).mem_iff

theorem nodup_sortByDepthDesc (l : List Tag) (h : l.Nodup) :
    (sortByDepthDesc l).Nodup :=
  (sortByDepthDesc_perm l).nodup_iff.mpr h

theorem mem_insertDesc (acc : List Tag) (t x : Tag) :
    x ∈ insertDesc acc t ↔ x = t ∨ x ∈ acc := by
  rw [(insertDesc_perm acc t).mem_iff, List.mem_cons]

theorem insertDesc_sorted (acc : List Tag) (t : Tag)
    (h : List.Pairwise (fun a b : Tag => countCC b ≤ countCC a) acc) :
    List.Pairwise (fun a b : Tag => countCC b ≤ countCC a) (insertDesc acc t) := by
  induction acc with
  | nil => simp [insertDesc]
  | cons a s ih =>
    rcases List.pairwise_cons.mp h with ⟨ha, hs⟩
    unfold insertDesc
    split
    · refine List.pairwise_cons.mpr ⟨?_, ih hs⟩
      intro x hx
      rcases (mem_insertDesc s t x).mp hx with rfl | hx2
      · assumption
      · exact ha x hx2
    · rename_i hlt
      push_neg at hlt
      refine List.pairwise_cons.mpr ⟨?_, h⟩
      intro x hx
      rcases List.mem_cons.mp hx with rfl | hx2
      · omega
      · have := ha x hx2
        omega

theorem sortByDepthDesc_sorted (l : List Tag) :
    List.Pairwise (fun a b : Tag => countCC b ≤ countCC a) (sortByDepthDesc l) := by
  unfold sortByDepthDesc
  have hgen : ∀ (l acc : List Tag),
      List.Pairwise (fun a b : Tag => countCC b ≤ countCC a) acc →
      List.Pairwise (fun a b : Tag => countCC b ≤ countCC a) (l.foldl insertDesc acc) := by
    intro l
    induction l with
    | nil => intro acc h; exact h
    | cons a l ih => intro acc h; exact ih _ (insertDesc_sorted acc a h)
  exact hgen l [] List.Pairwise.nil

theorem mem_allTagsList (t2c : List (Tag × List Int))
    (hier : List (Tag × List Tag)) (x : Tag) :
    x ∈ allTagsList t2c hier ↔
      x ∈ t2c.map Prod.fst ∨ x ∈ hier.map Prod.fst := by
  unfold allTagsList
  rw [mem_pyUpdate, mem_pyUpdate]
  simp

theorem nodup_allTagsList (t2c : List (Tag × List Int))
    (hier : List (Tag × List Tag)) : (allTagsList t2c hier).Nodup :=
  nodup_pyUpdate _ _ (nodup_pyUpdate _ _ List.nodup_nil)

theorem build_edge_depth (input : List (Tag × List PyCard)) (p c : Tag)
    (h : c ∈ alGetD (buildHierarchyFromCards input).tag_hierarchy p []) :
    countCC c = countCC p + 1 := by
  obtain ⟨e, he, hg⟩ := (mem_hier_build input p c).mp h
  exact genEdge_depth _ _ _ hg

theorem build_edge_closed (input : List (Tag × List PyCard)) (p c : Tag)
    (h : c ∈ alGetD (buildHierarchyFromCards input).tag_hierarchy p []) :
    c ∈ allTagsList (buildHierarchyFromCards input).tag_to_cards
      (buildHierarchyFromCards input).tag_hierarchy := by
  obtain ⟨e, he, hg⟩ := (mem_hier_build _ _ _).mp h
  rw [mem_allTagsList]
  rcases genEdge_child_cases _ _ _ hg with rfl | ⟨d, hg2⟩
  · left
    rw [keys_t2c_build]
    exact List.mem_map.mpr ⟨e, he, rfl⟩
  · right
    have hedge : d ∈ alGetD (buildHierarchyFromCards input).tag_hierarchy c [] :=
      (mem_hier_build _ _ _).mpr ⟨e, he, hg2⟩
    refine (KeysNE_build input c).mpr ?_
    intro hnil
    rw [hnil] at hedge
    exact absurd hedge (by simp)

theorem GoodEntry_persist (t2c : List (Tag × List Int))
    (hier : List (Tag × List Tag)) (hd : List (Tag × HEntry)) (t2 : Tag)
    (en : HEntry) (t3 : Tag) (e3 : HEntry)
    (hne : ∀ c ∈ alGetD hier t3 [], c ≠ t2)
    (h : GoodEntry t2c hier hd t3 e3) :
    GoodEntry t2c hier (alSet hd t2 en) t3 e3 := by
  refine ⟨h.direct, h.children, h.parents, h.dcount, h.hcount, h.ccount, h.nodup, ?_⟩
  intro x
  rw [h.mem_iff x]
  constructor
  · rintro (hx | ⟨c, e2, hc, hg, hx⟩)
    · exact Or.inl hx
    · exact Or.inr ⟨c, e2, hc, by rw [alGet_alSet, if_neg (hne c hc)]; exact hg, hx⟩
  · rintro (hx | ⟨c, e2, hc, hg, hx⟩)
    · exact Or.inl hx
    · rw [alGet_alSet, if_neg (hne c hc)] at hg
      exact Or.inr ⟨c, e2, hc, hg, hx⟩

theorem childFold_flag (t2c : List (Tag × List Int)) (hd : List (Tag × HEntry)) :
    ∀ (children : List Tag) (base : List Int) (b : Bool),
      (∀ c ∈ children, (alGet c hd).isSome = true) →
      (childFold t2c hd children base b).2 = b := by
  intro children
  induction children with
  | nil => intro base b _; rfl
  | cons c cs ih =>
    intro base b hall
    obtain ⟨e, he⟩ := Option.isSome_iff_exists.mp (hall c (by simp))
    unfold childFold
    rw [List.foldl_cons]
    simp only [he]
    exact ih _ _ fun c2 hc2 => hall c2 (by simp [hc2])

theorem childFold_mem (t2c : List (Tag × List Int)) (hd : List (Tag × HEntry)) :
    ∀ (children : List Tag) (base : List Int) (b : Bool),
      (∀ c ∈ children, (alGet c hd).isSome = true) →
      ∀ x, x ∈ (childFold t2c hd children base b).1 ↔
        x ∈ base ∨ ∃ c ∈ children, ∃ e2, alGet c hd = some e2 ∧
          x ∈ e2.all_unique_cards := by
  intro children
  induction children with
  | nil => intro base b _ x; simp [childFold]
  | cons c cs ih =>
    intro base b hall x
    obtain ⟨e, he⟩ := Option.isSome_iff_exists.mp (hall c (by simp))
    unfold childFold
    rw [List.foldl_cons]
    simp only [he]
    have ih2 := ih (pyUpdate base e.all_unique_cards) b
      (fun c2 hc2 => hall c2 (by simp [hc2])) x
    unfold childFold at ih2
    rw [ih2, mem_pyUpdate]
    constructor
    · rintro ((hb | hb) | ⟨c2, hc2, e2, hg2, hx2⟩)
      · exact Or.inl hb
      · exact Or.inr ⟨c, by simp, e, he, hb⟩
      · exact Or.inr ⟨c2, by simp [hc2], e2, hg2, hx2⟩
    · rintro (hb | ⟨c2, hc2, e2, hg2, hx2⟩)
      · exact Or.inl (Or.inl hb)
      · rcases List.mem_cons.mp hc2 with rfl | hc3
        · rw [he] at hg2
          have : e = e2 := by injection hg2
          exact Or.inl (Or.inr (this ▸ hx2))
        · exact Or.inr ⟨c2, hc3, e2, hg2, hx2⟩

theorem childFold_nodup (t2c : List (Tag × List Int)) (hd : List (Tag × HEntry)) :
    ∀ (children : List Tag) (base : List Int) (b : Bool), base.Nodup →
      (childFold t2c hd children base b).1.Nodup := by
  intro children
  induction children with
  | nil => intro base b h; exact h
  | cons c cs ih =>
    intro base b h
    unfold childFold
    rw [List.foldl_cons]
    rcases hg : alGet c hd with _ | e
    · simp only [hg]
      exact ih _ true (nodup_pyUpdate _ _ h)
    · simp only [hg]
      exact ih _ b (nodup_pyUpdate _ _ h)

theorem calcStep_fst (t2c : List (Tag × List Int)) (hier : List (Tag × List Tag))
    (acc : List (Tag × HEntry) × Bool) (tag : Tag) :
    (calcStep t2c hier acc tag).1 =
      alSet acc.1 tag (calcEntry t2c hier tag
        (childFold t2c acc.1 (alGetD hier tag []) (alGetD t2c tag []) acc.2).1) := rfl

theorem calcStep_snd (t2c : List (Tag × List Int)) (hier : List (Tag × List Tag))
    (acc : List (Tag × HEntry) × Bool) (tag : Tag) :
    (calcStep t2c hier acc tag).2 =
      (childFold t2c acc.1 (alGetD hier tag []) (alGetD t2c tag []) acc.2).2 := rfl

theorem calc_fold_inv (t2c : List (Tag × List Int)) (hier : List (Tag × List Tag))
    (Hdep : ∀ p c, c ∈ alGetD hier p [] → countCC c = countCC p + 1)
    (HdirND : ∀ t, (alGetD t2c t []).Nodup)
    (ord : List Tag) (Hnd : ord.Nodup)
    (Hsort : List.Pairwise (fun a b : Tag => countCC b ≤ countCC a) ord)
    (Hcl : ∀ p c, c ∈ alGetD hier p [] → c ∈ ord) :
    ∀ (rest done : List Tag) (acc : List (Tag × HEntry) × Bool),
      ord = done ++ rest → CalcInv t2c hier done acc →
      CalcInv t2c hier ord (rest.foldl (calcStep t2c hier) acc) := by
  intro rest
  induction rest with
  | nil =>
    intro done acc hEq hInv
    rw [List.foldl_nil, hEq, List.append_nil]
    exact hInv
  | cons t rest2 ih =>
    intro done acc hEq hInv
    rw [List.foldl_cons]
    refine ih (done ++ [t]) _ (by rw [hEq, List.append_assoc]; rfl) ?_
    -- establish CalcInv (done ++ [t]) (calcStep t2c hier acc t)
    have hndSplit : (done ++ t :: rest2).Nodup := hEq ▸ Hnd
    have htdone : t ∉ done := by
      rcases List.nodup_append.mp hndSplit with ⟨_, _, hdisj⟩
      intro hmem
      exact hdisj hmem (by simp)
    have hsortSplit : List.Pairwise (fun a b : Tag => countCC b ≤ countCC a)
        (done ++ t :: rest2) := hEq ▸ Hsort
    rcases List.pairwise_append.mp hsortSplit with ⟨hsDone, hsRest, hcross⟩
    rcases List.pairwise_cons.mp hsRest with ⟨hsHead, _⟩
    have hchild_done : ∀ c ∈ alGetD hier t [], c ∈ done := by
      intro c hc
      have hcord : c ∈ ord := Hcl t c hc
      have hdepth := Hdep t c hc
      rw [hEq] at hcord
      rcases List.mem_append.mp hcord with h1 | h1
      · exact h1
      · rcases List.mem_cons.mp h1 with rfl | h2
        · omega
        · have := hsHead c h2
          omega
    have hchild_ne : ∀ c ∈ alGetD hier t [], c ≠ t := by
      intro c hc hct
      have := Hdep t c hc
      rw [hct] at this
      omega
    have hchild_some : ∀ c ∈ alGetD hier t [], (alGet c acc.1).isSome = true :=
      fun c hc => (hInv.keys c).mpr (hchild_done c hc)
    have hflag : (childFold t2c acc.1 (alGetD hier t []) (alGetD t2c t []) acc.2).2
        = acc.2 := childFold_flag t2c acc.1 _ _ _ hchild_some
    refine ⟨?_, ?_, ?_⟩
    · -- keys
      intro q
      rw [calcStep_fst, alGet_alSet]
      by_cases hq : q = t
      · subst hq
        simp
      · rw [if_neg hq, hInv.keys q]
        simp [hq]
    · -- entries are good
      intro q e hq
      rw [calcStep_fst, alGet_alSet] at hq
      by_cases hqt : q = t
      · subst hqt
        rw [if_pos rfl] at hq
        have he : e = calcEntry t2c hier q
            (childFold t2c acc.1 (alGetD hier q []) (alGetD t2c q []) acc.2).1 := by
          injection hq.symm
        subst he
        rw [calcStep_fst]
        refine ⟨rfl, rfl, rfl, rfl, rfl, rfl,
          childFold_nodup t2c acc.1 _ _ _ (HdirND q), ?_⟩
        intro x
        show x ∈ (childFold t2c acc.1 (alGetD hier q []) (alGetD t2c q []) acc.2).1 ↔ _
        rw [childFold_mem t2c acc.1 _ _ _ hchild_some x]
        show _ ↔ x ∈ alGetD t2c q [] ∨ _
        constructor
        · rintro (hb | ⟨c, hc, e2, hg2, hx2⟩)
          · exact Or.inl hb
          · refine Or.inr ⟨c, e2, hc, ?_, hx2⟩
            rw [alGet_alSet, if_neg (hchild_ne c hc)]
            exact hg2
        · rintro (hb | ⟨c, e2, hc, hg2, hx2⟩)
          · exact Or.inl hb
          · rw [alGet_alSet, if_neg (hchild_ne c hc)] at hg2
            exact Or.inr ⟨c, hc, e2, hg2, hx2⟩
      · rw [if_neg hqt] at hq
        have hqdone : q ∈ done := (hInv.keys q).mp (by simp [hq])
        have hgood := hInv.good q e hq
        rw [calcStep_fst]
        refine GoodEntry_persist t2c hier acc.1 t _ q e ?_ hgood
        intro c hc hct
        have hdep := Hdep q c hc
        have hle := hcross q hqdone t (by simp)
        rw [hct] at hdep
        omega
    · -- flag still down
      rw [calcStep_snd, hflag]
      exact hInv.flag

theorem calc_inv_init (t2c : List (Tag × List Int)) (hier : List (Tag × List Tag)) :
    CalcInv t2c hier [] ([], false) := by
  refine ⟨?_, ?_, rfl⟩
  · intro t
    simp [alGet]
  · intro t e h
    simp [alGet] at h

theorem calc_inv_build (input : List (Tag × List PyCard)) :
    CalcInv (buildHierarchyFromCards input).tag_to_cards
      (buildHierarchyFromCards input).tag_hierarchy
      (sortByDepthDesc (allTagsList (buildHierarchyFromCards input).tag_to_cards
        (buildHierarchyFromCards input).tag_hierarchy))
      (calculateHierarchicalCountsFB (buildHierarchyFromCards input)) := by
  have hmain := calc_fold_inv (buildHierarchyFromCards input).tag_to_cards
    (buildHierarchyFromCards input).tag_hierarchy
    (build_edge_depth input) (t2c_value_nodup input)
    (sortByDepthDesc (allTagsList (buildHierarchyFromCards input).tag_to_cards
      (buildHierarchyFromCards input).tag_hierarchy))
    (nodup_sortByDepthDesc _ (nodup_allTagsList _ _))
    (sortByDepthDesc_sorted _)
    (fun p c hc => (mem_sortByDepthDesc _ _).mpr (build_edge_closed input p c hc))
    (sortByDepthDesc (allTagsList (buildHierarchyFromCards input).tag_to_cards
      (buildHierarchyFromCards input).tag_hierarchy))
    [] ([], false) rfl (calc_inv_init _ _)
  exact hmain

theorem calcFB_flag_false (input : List (Tag × List PyCard)) :
    (calculateHierarchicalCountsFB (buildHierarchyFromCards input)).2 = false :=
  (calc_inv_build input).flag

theorem calc_keys (input : List (Tag × List PyCard)) (t : Tag) :
    (alGet t (calculateHierarchicalCounts (buildHierarchyFromCards input))).isSome
        = true ↔
      t ∈ allTagsList (buildHierarchyFromCards input).tag_to_cards
        (buildHierarchyFromCards input).tag_hierarchy := by
  unfold calculateHierarchicalCounts
  rw [(calc_inv_build input).keys t, mem_sortByDepthDesc]

theorem calc_good (input : List (Tag × List PyCard)) (t : Tag) (e : HEntry)
    (h : alGet t (calculateHierarchicalCounts (buildHierarchyFromCards input))
        = some e) :
    GoodEntry (buildHierarchyFromCards input).tag_to_cards
      (buildHierarchyFromCards input).tag_hierarchy
      (calculateHierarchicalCounts (buildHierarchyFromCards input)) t e :=
  (calc_inv_build input).good t e h

theorem rollup_mono (input : List (Tag × List PyCard)) (t c : Tag)
    (hc : childEdge (buildHierarchyFromCards input).tag_hierarchy t c)
    (et ec : HEntry)
    (ht : alGet t (calculateHierarchicalCounts (buildHierarchyFromCards input))
        = some et)
    (hcget : alGet c (calculateHierarchicalCounts (buildHierarchyFromCards input))
        = some ec)
    (x : Int) (hx : x ∈ ec.all_unique_cards) : x ∈ et.all_unique_cards :=
  ((calc_good input t et ht).mem_iff x).mpr (Or.inr ⟨c, ec, hc, hcget, hx⟩)

theorem descend_entry (input : List (Tag × List PyCard)) (t d : Tag)
    (h : descends (buildHierarchyFromCards input).tag_hierarchy t d) :
    (alGet d (calculateHierarchicalCounts (buildHierarchyFromCards input))).isSome
      = true := by
  rw [calc_keys]
  induction h with
  | single hedge => exact build_edge_closed input _ _ hedge
  | tail hrec hedge ih => exact build_edge_closed input _ _ hedge

theorem rollup_desc_mono (input : List (Tag × List PyCard)) (t d : Tag)
    (h : descends (buildHierarchyFromCards input).tag_hierarchy t d)
    (et ed : HEntry)
    (ht : alGet t (calculateHierarchicalCounts (buildHierarchyFromCards input))
        = some et)
    (hdget : alGet d (calculateHierarchicalCounts (buildHierarchyFromCards input))
        = some ed)
    (x : Int) (hx : x ∈ ed.all_unique_cards) : x ∈ et.all_unique_cards := by
  induction h generalizing ed with
  | single hedge => exact rollup_mono input _ _ hedge _ _ ht hdget x hx
  | tail hrec hedge ih =>
    rename_i b d2
    obtain ⟨eb, hb⟩ := Option.isSome_iff_exists.mp (descend_entry input t b hrec)
    exact ih eb hb (rollup_mono input b d2 hedge eb ed hb hdget x hx)

theorem calc_rollup_char (input : List (Tag × List PyCard)) (t : Tag) (e : HEntry)
    (h : alGet t (calculateHierarchicalCounts (buildHierarchyFromCards input))
        = some e) (x : Int) :
    x ∈ e.all_unique_cards ↔
      x ∈ e.direct_cards ∨
        ∃ d ed, descends (buildHierarchyFromCards input).tag_hierarchy t d ∧
          alGet d (calculateHierarchicalCounts (buildHierarchyFromCards input))
            = some ed ∧ x ∈ ed.all_unique_cards := by
  constructor
  · intro hx
    rcases ((calc_good input t e h).mem_iff x).mp hx with hb | ⟨c, e2, hc, hg, hx2⟩
    · exact Or.inl hb
    · exact Or.inr ⟨c, e2, Relation.TransGen.single hc, hg, hx2⟩
  · rintro (hb | ⟨d, ed, hdesc, hdget, hx2⟩)
    · exact ((calc_good input t e h).mem_iff x).mpr (Or.inl hb)
    · exact rollup_desc_mono input t d hdesc e ed h hdget x hx2

/-- C1: for every input tag-to-cards mapping, after building the hierarchy
and running the hierarchical count calculation, every tag node's rolled-up
card set (`all_unique_cards`) is duplicate-free and consists exactly of the
node's direct card-id set together with the members of its descendants'
rolled-up sets — i.e. it is the exact set union of the direct set and the
descendants' rolled-up sets, with a card reachable through two different
descendants appearing exactly once. -/
theorem C1_rollup_exact_union (input : List (Tag × List PyCard)) (t : Tag)
    (e : HEntry)
    (h : alGet t (calculateHierarchicalCounts (buildHierarchyFromCards input))
      = some e) :
    e.all_unique_cards.Nodup ∧
      ∀ x : Int, x ∈ e.all_unique_cards ↔
        x ∈ e.direct_cards ∨
          ∃ d ed, descends (buildHierarchyFromCards input).tag_hierarchy t d ∧
            alGet d (calculateHierarchicalCounts (buildHierarchyFromCards input))
              = some ed ∧ x ∈ ed.all_unique_cards :=
  ⟨(calc_good input t e h).nodup, fun x => calc_rollup_char input t e h x⟩

theorem C1_rollup_exact_union_witness :
    wEntryA.all_unique_cards.Nodup ∧
      ∀ x : Int, x ∈ wEntryA.all_unique_cards ↔
        x ∈ wEntryA.direct_cards ∨
          ∃ d ed, descends (buildHierarchyFromCards wInput1).tag_hierarchy wTagA d ∧
            alGet d (calculateHierarchicalCounts (buildHierarchyFromCards wInput1))
              = some ed ∧ x ∈ ed.all_unique_cards :=
  C1_rollup_exact_union wInput1 wTagA wEntryA (by decide)

/-- C3: for every tag node in the result of the hierarchical count
calculation, `hierarchical_count` equals the cardinality of the node's
rolled-up card set, `children_count` equals `hierarchical_count` minus
`direct_count`, and both `direct_count ≤ hierarchical_count` and
`0 ≤ children_count` hold. -/
theorem C3_count_invariants (input : List (Tag × List PyCard)) (t : Tag)
    (e : HEntry)
    (h : alGet t (calculateHierarchicalCounts (buildHierarchyFromCards input))
      = some e) :
    e.hierarchical_count = e.all_unique_cards.toFinset.card ∧
      e.children_count = (e.hierarchical_count : Int) - (e.direct_count : Int) ∧
      e.direct_count ≤ e.hierarchical_count ∧ 0 ≤ e.children_count := by
  have hg := calc_good input t e h
  have hdnd : e.direct_cards.Nodup := by
    rw [hg.direct]
    exact t2c_value_nodup input t
  have hsub : e.direct_cards.toFinset ⊆ e.all_unique_cards.toFinset := by
    intro x hx
    rw [List.mem_toFinset] at hx ⊢
    exact (hg.mem_iff x).mpr (Or.inl hx)
  have hle : e.direct_count ≤ e.hierarchical_count := by
    rw [hg.dcount, hg.hcount, ← List.toFinset_card_of_nodup hdnd,
      ← List.toFinset_card_of_nodup hg.nodup]
    exact Finset.card_le_card hsub
  refine ⟨?_, hg.ccount, hle, ?_⟩
  · rw [hg.hcount, List.toFinset_card_of_nodup hg.nodup]
  · rw [hg.ccount]
    omega

theorem C3_count_invariants_witness :
    wEntryA.hierarchical_count = wEntryA.all_unique_cards.toFinset.card ∧
      wEntryA.children_count =
        (wEntryA.hierarchical_count : Int) - (wEntryA.direct_count : Int) ∧
      wEntryA.direct_count ≤ wEntryA.hierarchical_count ∧
      0 ≤ wEntryA.children_count :=
  C3_count_invariants wInput1 wTagA wEntryA (by decide)

/-- C5: for every input, under the deepest-first processing order the
defensive fallback branch of `calculate_hierarchical_counts` (falling back
to a child's direct card set because the child is not yet in
`hierarchical_data`) is unreachable: the instrumented fallback flag of the
calculation is always false, i.e. every child consulted during a node's
union is already present in `hierarchical_data`. -/
theorem C5_fallback_unreachable (input : List (Tag × List PyCard)) :
    (calculateHierarchicalCountsFB (buildHierarchyFromCards input)).2 = false :=
  calcFB_flag_false input

theorem scanLevel_eq_find (ps : List Str) :
    scanLevel ps =
      (match ps.find? (fun p => matchLevel p != 0) with
        | some p => matchLevel p
        | none => 0) := by
  induction ps with
  | nil => rfl
  | cons p l ih =>
    unfold scanLevel
    by_cases h : matchLevel p ≠ 0
    · rw [if_pos h, List.find?_cons_of_pos _ (by simpa using h)]
    · rw [if_neg h, ih, List.find?_cons_of_neg _ (by simpa using h)]

/-- C7: the yield level of a tag is 0 unless the tag is a yield marker
(its lowercased label contains both "high" and "yield", or contains
"highyield", "lowyield" or "loweryield"); for a marker the level is the
digit 1-5 starting the whole label and immediately followed by a dash or
underscore or, failing that, the digit starting the first (outermost)
segment having one; a marker with no such digit-prefixed segment yields
0.  Stated as: the source's `_get_yield_level` agrees with the claim-side
restatement `claimYieldLevel` on every tag string. -/
theorem C7_yield_level_spec (tag : Str) :
    getYieldLevel tag = claimYieldLevel tag := by
  unfold getYieldLevel claimYieldLevel
  rw [show isHighYieldTag tag = claimYieldMarker tag from rfl]
  split_ifs with h1 h2
  · rfl
  · rfl
  · exact scanLevel_eq_find (splitCC tag)

theorem mem_exportPipeline (cb : Int → Option PyCard) (rv : Int → List RevEntry)
    (sn ts : Str) (input : List (Tag × List PyCard)) (r : TagRecord) :
    r ∈ exportPipeline cb rv sn ts input ↔
      ∃ t, t ∈ pyUpdate (pyUpdate [] (input.map Prod.fst))
          ((calculateHierarchicalCounts (buildHierarchyFromCards input)).map
            Prod.fst) ∧
        r = mkTagRecord cb rv sn ts input
          (calculateHierarchicalCounts (buildHierarchyFromCards input)) t := by
  unfold exportPipeline createExportDataFast
  rw [List.mem_map]
  constructor
  · rintro ⟨t, ht, rfl⟩
    exact ⟨t, ht, rfl⟩
  · rintro ⟨t, ht, rfl⟩
    exact ⟨t, ht, rfl⟩

theorem flatMap_eq_nil_of_forall {α β : Type} (l : List α) (f : α → List β)
    (h : ∀ x, f x = []) : l.flatMap f = [] := by
  induction l with
  | nil => rfl
  | cons a l ih => simp [List.flatMap_cons, h a, ih]

theorem mkTagRecord_total_cards (cb : Int → Option PyCard)
    (rv : Int → List RevEntry) (sn ts : Str) (cbt : List (Tag × List PyCard))
    (hd : List (Tag × HEntry)) (t : Tag) :
    (mkTagRecord cb rv sn ts cbt hd t).total_cards = (alGetD cbt t []).length := rfl

theorem mkTagRecord_hier_total (cb : Int → Option PyCard)
    (rv : Int → List RevEntry) (sn ts : Str) (cbt : List (Tag × List PyCard))
    (hd : List (Tag × HEntry)) (t : Tag) :
    (mkTagRecord cb rv sn ts cbt hd t).hierarchical_total_cards =
      ((alGet t hd).map fun e => e.hierarchical_count).getD
        (alGetD cbt t []).length := rfl

theorem mkTagRecord_avg_ease (cb : Int → Option PyCard)
    (rv : Int → List RevEntry) (sn ts : Str) (cbt : List (Tag × List PyCard))
    (hd : List (Tag × HEntry)) (t : Tag) :
    (mkTagRecord cb rv sn ts cbt hd t).avg_ease =
      (avgsOf cb (alGetD cbt t []) (alGet t hd)).avg_ease := rfl

theorem mkTagRecord_avg_interval (cb : Int → Option PyCard)
    (rv : Int → List RevEntry) (sn ts : Str) (cbt : List (Tag × List PyCard))
    (hd : List (Tag × HEntry)) (t : Tag) :
    (mkTagRecord cb rv sn ts cbt hd t).avg_interval =
      (avgsOf cb (alGetD cbt t []) (alGet t hd)).avg_interval := rfl

theorem mkTagRecord_unique_notes (cb : Int → Option PyCard)
    (rv : Int → List RevEntry) (sn ts : Str) (cbt : List (Tag × List PyCard))
    (hd : List (Tag × HEntry)) (t : Tag) :
    (mkTagRecord cb rv sn ts cbt hd t).unique_notes =
      (avgsOf cb (alGetD cbt t []) (alGet t hd)).unique_notes := rfl

theorem mkTagRecord_total_lapses (cb : Int → Option PyCard)
    (rv : Int → List RevEntry) (sn ts : Str) (cbt : List (Tag × List PyCard))
    (hd : List (Tag × HEntry)) (t : Tag) :
    (mkTagRecord cb rv sn ts cbt hd t).total_lapses =
      (avgsOf cb (alGetD cbt t []) (alGet t hd)).total_lapses := rfl

theorem mkTagRecord_total_reviews (cb : Int → Option PyCard)
    (rv : Int → List RevEntry) (sn ts : Str) (cbt : List (Tag × List PyCard))
    (hd : List (Tag × HEntry)) (t : Tag) :
    (mkTagRecord cb rv sn ts cbt hd t).total_reviews =
      (revsOf rv (alGetD cbt t []) (alGet t hd)).total_reviews := rfl

theorem mkTagRecord_total_time_ms (cb : Int → Option PyCard)
    (rv : Int → List RevEntry) (sn ts : Str) (cbt : List (Tag × List PyCard))
    (hd : List (Tag × HEntry)) (t : Tag) :
    (mkTagRecord cb rv sn ts cbt hd t).total_time_ms =
      (revsOf rv (alGetD cbt t []) (alGet t hd)).total_time_ms := rfl

theorem mkTagRecord_avg_time_ms (cb : Int → Option PyCard)
    (rv : Int → List RevEntry) (sn ts : Str) (cbt : List (Tag × List PyCard))
    (hd : List (Tag × HEntry)) (t : Tag) :
    (mkTagRecord cb rv sn ts cbt hd t).avg_time_ms =
      (revsOf rv (alGetD cbt t []) (alGet t hd)).avg_time_ms := rfl

theorem avgsOf_zero (cb : Int → Option PyCard) (cards : List PyCard)
    (hinfo : Option HEntry) (h1 : cards.length = 0)
    (h2 : hcPosOf hinfo = false) : avgsOf cb cards hinfo = zeroAvgs := by
  unfold avgsOf
  rw [if_neg (by omega), if_neg (by rw [h2]; exact Bool.false_ne_true)]

theorem revsOf_zero (rv : Int → List RevEntry) (cards : List PyCard)
    (hinfo : Option HEntry) (h1 : cards.length = 0)
    (h2 : hcPosOf hinfo = false) : revsOf rv cards hinfo = zeroRevs := by
  unfold revsOf
  rw [if_neg (by omega), if_neg (by rw [h2]; exact Bool.false_ne_true)]

theorem revStatsOf_nil_reviews (logs : List RevEntry)
    (h : logs.length = 0) :
    (revStatsOf logs).total_reviews = 0 ∧ (revStatsOf logs).avg_time_ms = 0 ∧
      (revStatsOf logs).total_time_ms = 0 := by
  rcases logs with _ | ⟨a, l⟩
  · exact ⟨rfl, rfl, rfl⟩
  · simp at h

theorem revsOf_no_logs (rv : Int → List RevEntry) (cards : List PyCard)
    (hinfo : Option HEntry) (h : ∀ cid, rv cid = []) :
    (revsOf rv cards hinfo).total_reviews = 0 ∧
      (revsOf rv cards hinfo).avg_time_ms = 0 ∧
      (revsOf rv cards hinfo).total_time_ms = 0 := by
  unfold revsOf
  split_ifs with h1 h2
  · refine revStatsOf_nil_reviews _ ?_
    rw [flatMap_eq_nil_of_forall _ _ ?_]
    · rfl
    · intro c
      rcases c.id with _ | n
      · rfl
      · exact h n
  · refine revStatsOf_nil_reviews _ ?_
    rw [flatMap_eq_nil_of_forall _ _ h]
    rfl
  · exact ⟨rfl, rfl, rfl⟩

theorem revsOf_guard (rv : Int → List RevEntry) (cards : List PyCard)
    (hinfo : Option HEntry) (h : (revsOf rv cards hinfo).total_reviews = 0) :
    (revsOf rv cards hinfo).avg_time_ms = 0 := by
  unfold revsOf at h ⊢
  split_ifs at h ⊢ with h1 h2
  · show (if 0 < _ then _ else (0 : ℚ)) = 0
    rw [if_neg]
    have : (cards.flatMap fun c => revlogsOfId rv c.id).length = 0 := h
    omega
  · show (if 0 < _ then _ else (0 : ℚ)) = 0
    rw [if_neg]
    have : ((rollupOf hinfo).flatMap rv).length = 0 := h
    omega
  · rfl

/-- C8: for every export record, when the representative card set is empty
(no direct cards and zero rolled-up count) all average fields are zero
rather than a division error: `avg_ease`, `avg_interval`, `unique_notes`,
`total_lapses`, `total_reviews` and `avg_time_ms` are all 0; when the
record's cards have no review-log entries, `total_reviews = 0` and
`avg_time_ms = 0`; and the time average is guarded: whenever
`total_reviews = 0`, `avg_time_ms = 0`. -/
theorem C8_zero_guards (cb : Int → Option PyCard) (rv : Int → List RevEntry)
    (sn ts : Str) (input : List (Tag × List PyCard)) (r : TagRecord)
    (hr : r ∈ exportPipeline cb rv sn ts input) :
    (r.total_cards = 0 ∧ r.hierarchical_total_cards = 0 →
      r.avg_ease = 0 ∧ r.avg_interval = 0 ∧ r.unique_notes = 0 ∧
        r.total_lapses = 0 ∧ r.total_reviews = 0 ∧ r.avg_time_ms = 0) ∧
    ((∀ cid, rv cid = []) →
      r.total_reviews = 0 ∧ r.avg_time_ms = 0 ∧ r.total_time_ms = 0) ∧
    (r.total_reviews = 0 → r.avg_time_ms = 0) := by
  obtain ⟨t, ht, rfl⟩ := (mem_exportPipeline cb rv sn ts input r).mp hr
  refine ⟨?_, ?_, ?_⟩
  · rintro ⟨hc0, hh0⟩
    rw [mkTagRecord_total_cards] at hc0
    rw [mkTagRecord_hier_total] at hh0
    have hcp : hcPosOf (alGet t
        (calculateHierarchicalCounts (buildHierarchyFromCards input))) = false := by
      rcases hg : alGet t
          (calculateHierarchicalCounts (buildHierarchyFromCards input)) with _ | e
      · rfl
      · rw [hg] at hh0
        simp at hh0
        simp [hcPosOf, hh0]
    have ha := avgsOf_zero cb (alGetD input t []) _ hc0 hcp
    have hb := revsOf_zero rv (alGetD input t []) _ hc0 hcp
    rw [mkTagRecord_avg_ease, mkTagRecord_avg_interval, mkTagRecord_unique_notes,
      mkTagRecord_total_lapses, mkTagRecord_total_reviews, mkTagRecord_avg_time_ms,
      ha, hb]
    exact ⟨rfl, rfl, rfl, rfl, rfl, rfl⟩
  · intro hnil
    have h := revsOf_no_logs rv (alGetD input t [])
      (alGet t (calculateHierarchicalCounts (buildHierarchyFromCards input))) hnil
    rw [mkTagRecord_total_reviews, mkTagRecord_avg_time_ms,
      mkTagRecord_total_time_ms]
    exact ⟨h.1, h.2.1, h.2.2⟩
  · intro h0
    rw [mkTagRecord_total_reviews] at h0
    rw [mkTagRecord_avg_time_ms]
    exact revsOf_guard rv _ _ h0

theorem C8_zero_guards_witness :
    (wRecA.total_cards = 0 ∧ wRecA.hierarchical_total_cards = 0 →
      wRecA.avg_ease = 0 ∧ wRecA.avg_interval = 0 ∧ wRecA.unique_notes = 0 ∧
        wRecA.total_lapses = 0 ∧ wRecA.total_reviews = 0 ∧
        wRecA.avg_time_ms = 0) ∧
    ((∀ cid, wRv cid = []) →
      wRecA.total_reviews = 0 ∧ wRecA.avg_time_ms = 0 ∧
        wRecA.total_time_ms = 0) ∧
    (wRecA.total_reviews = 0 → wRecA.avg_time_ms = 0) :=
  C8_zero_guards wCb wRv [] [] wInput1 wRecA (by
    show wRecA ∈ exportPipeline wCb wRv [] [] wInput1
    unfold exportPipeline createExportDataFast wRecA
    refine List.mem_map.mpr ⟨wTagA, ?_, rfl⟩
    decide)

theorem le_foldr_max (l : List Tag) (q : Tag) (h : q ∈ l) :
    countCC q ≤ l.foldr (fun a m => max (countCC a) m) 0 := by
  induction l with
  | nil => simp at h
  | cons a l ih =>
    rcases List.mem_cons.mp h with rfl | h2
    · simp
    · exact le_trans (ih h2) (by simp)

theorem calc_rollup_closed (input : List (Tag × List PyCard)) (t : Tag)
    (e : HEntry)
    (h : alGet t (calculateHierarchicalCounts (buildHierarchyFromCards input))
      = some e) (x : Int) :
    x ∈ e.all_unique_cards ↔
      ∃ d, Relation.ReflTransGen
          (childEdge (buildHierarchyFromCards input).tag_hierarchy) t d ∧
        x ∈ alGetD (buildHierarchyFromCards input).tag_to_cards d [] := by
  constructor
  · -- forward, by strong induction on remaining depth headroom
    have hmain : ∀ (k : Nat) (t2 : Tag) (e2 : HEntry),
        alGet t2 (calculateHierarchicalCounts (buildHierarchyFromCards input))
          = some e2 →
        (allTagsList (buildHierarchyFromCards input).tag_to_cards
            (buildHierarchyFromCards input).tag_hierarchy).foldr
            (fun a m => max (countCC a) m) 0 + 1 - countCC t2 ≤ k →
        ∀ x2 ∈ e2.all_unique_cards,
          ∃ d, Relation.ReflTransGen
              (childEdge (buildHierarchyFromCards input).tag_hierarchy) t2 d ∧
            x2 ∈ alGetD (buildHierarchyFromCards input).tag_to_cards d [] := by
      intro k
      induction k with
      | zero =>
        intro t2 e2 h2 hk x2 hx2
        have hmem : t2 ∈ allTagsList (buildHierarchyFromCards input).tag_to_cards
            (buildHierarchyFromCards input).tag_hierarchy :=
          (calc_keys input t2).mp (by simp [h2])
        have := le_foldr_max _ t2 hmem
        omega
      | succ k ih =>
        intro t2 e2 h2 hk x2 hx2
        rcases ((calc_good input t2 e2 h2).mem_iff x2).mp hx2 with
          hb | ⟨c, ec, hc, hg, hx3⟩
        · refine ⟨t2, Relation.ReflTransGen.refl, ?_⟩
          rw [← (calc_good input t2 e2 h2).direct]
          exact hb
        · have hdep := build_edge_depth input t2 c hc
          have hcm : c ∈ allTagsList (buildHierarchyFromCards input).tag_to_cards
              (buildHierarchyFromCards input).tag_hierarchy :=
            build_edge_closed input t2 c hc
          have hcb := le_foldr_max _ c hcm
          obtain ⟨d, hrt, hxd⟩ := ih c ec hg (by omega) x2 hx3
          exact ⟨d, Relation.ReflTransGen.head hc hrt, hxd⟩
    intro hx
    exact hmain ((allTagsList (buildHierarchyFromCards input).tag_to_cards
        (buildHierarchyFromCards input).tag_hierarchy).foldr
        (fun a m => max (countCC a) m) 0 + 1 - countCC t) t e h (le_refl _) x hx
  · rintro ⟨d, hrt, hxd⟩
    rcases Relation.reflTransGen_iff_eq_or_transGen.mp hrt with rfl | htg
    · rw [← (calc_good input d e h).direct] at hxd
      exact ((calc_good input d e h).mem_iff x).mpr (Or.inl hxd)
    · obtain ⟨ed, hde⟩ := Option.isSome_iff_exists.mp (descend_entry input t d htg)
      have hxall : x ∈ ed.all_unique_cards := by
        refine ((calc_good input d ed hde).mem_iff x).mpr (Or.inl ?_)
        rw [(calc_good input d ed hde).direct]
        exact hxd
      exact rollup_desc_mono input t d htg e ed h hde x hxall

theorem truthyInt_eq_some (o : Option Int) (x : Int) :
    truthyInt o = some x ↔ o = some x ∧ x ≠ 0 := by
  rcases o with _ | n
  · simp [truthyInt]
  · show (if n = 0 then none else some n) = some x ↔ some n = some x ∧ x ≠ 0
    by_cases h : n = 0
    · subst h
      rw [if_pos rfl]
      constructor
      · intro he
        exact absurd he (by simp)
      · rintro ⟨he, hne⟩
        have h0 : (0 : Int) = x := by injection he
        exact absurd h0.symm hne
    · rw [if_neg h]
      constructor
      · intro he
        have hnx : n = x := by injection he
        subst hnx
        exact ⟨rfl, h⟩
      · rintro ⟨he, _⟩
        exact he

theorem alGet_of_mem_nodup {α β : Type} [DecidableEq α] (d : List (α × β))
    (k : α) (v : β) (hnd : (d.map Prod.fst).Nodup) (h : (k, v) ∈ d) :
    alGet k d = some v := by
  induction d with
  | nil => simp at h
  | cons p r ih =>
    rw [List.map_cons, List.nodup_cons] at hnd
    rcases List.mem_cons.mp h with rfl | h2
    · show (if k = k then some v else _) = some v
      rw [if_pos rfl]
    · have hpk : p.1 ≠ k := by
        intro he
        refine hnd.1 ?_
        rw [he]
        exact List.mem_map.mpr ⟨(k, v), h2, rfl⟩
      show (if p.1 = k then some p.2 else alGet k r) = some v
      rw [if_neg hpk]
      exact ih hnd.2 h2

/-- C10: a card record whose id is missing, `None` or `0` is excluded from
the tag's direct card-id set, from the global unique-card-id set, and from
every rolled-up set (all rolled-up members come from truthy ids of the
input) — while the record is still counted in the per-tag `total_cards`
(which counts the raw card list), so a node's `direct_count` can be
strictly smaller than the `total_cards` reported for the same tag, as the
concrete input `wInput10` (ids `none`, `0`, `5` on one tag) shows. -/
theorem C10_falsy_ids :
    (∀ (input : List (Tag × List PyCard)), (input.map Prod.fst).Nodup →
      ∀ t cs, (t, cs) ∈ input → ∀ x : Int,
        x ∈ alGetD (buildHierarchyFromCards input).tag_to_cards t [] ↔
          ∃ c ∈ cs, c.id = some x ∧ x ≠ 0) ∧
    (∀ (input : List (Tag × List PyCard)) (x : Int),
      x ∈ (buildHierarchyFromCards input).unique_card_ids ↔
        ∃ e ∈ input, ∃ c ∈ e.2, c.id = some x ∧ x ≠ 0) ∧
    (∀ (input : List (Tag × List PyCard)) (t : Tag) (e : HEntry) (x : Int),
      alGet t (calculateHierarchicalCounts (buildHierarchyFromCards input))
        = some e → x ∈ e.all_unique_cards →
      ∃ e2 ∈ input, ∃ c ∈ e2.2, c.id = some x ∧ x ≠ 0) ∧
    (∀ (cb : Int → Option PyCard) (rv : Int → List RevEntry) (sn ts : Str)
      (input : List (Tag × List PyCard)) (hd : List (Tag × HEntry)),
      (input.map Prod.fst).Nodup → ∀ t cs, (t, cs) ∈ input →
        (mkTagRecord cb rv sn ts input hd t).total_cards = cs.length) ∧
    ((alGet wTagA
        (calculateHierarchicalCounts (buildHierarchyFromCards wInput10))).map
        (fun e => e.direct_count) = some 1 ∧
      (mkTagRecord wCb wRv [] [] wInput10
        (calculateHierarchicalCounts (buildHierarchyFromCards wInput10))
        wTagA).total_cards = 3) := by
  refine ⟨?_, ?_, ?_, ?_, by decide, by decide⟩
  · intro input hnd t cs hin x
    have hv := t2c_value_build input hnd t cs hin
    unfold alGetD
    rw [hv]
    show x ∈ idFold [] cs ↔ _
    rw [mem_idFold]
    constructor
    · rintro (hb | ⟨c, hc, ht⟩)
      · simp at hb
      · exact ⟨c, hc, (truthyInt_eq_some c.id x).mp ht⟩
    · rintro ⟨c, hc, ht⟩
      exact Or.inr ⟨c, hc, (truthyInt_eq_some c.id x).mpr ht⟩
  · intro input x
    rw [mem_unique_build]
    constructor
    · rintro ⟨e, he, c, hc, ht⟩
      exact ⟨e, he, c, hc, (truthyInt_eq_some c.id x).mp ht⟩
    · rintro ⟨e, he, c, hc, ht⟩
      exact ⟨e, he, c, hc, (truthyInt_eq_some c.id x).mpr ht⟩
  · intro input t e x hget hx
    obtain ⟨d, _, hxd⟩ := (calc_rollup_closed input t e hget x).mp hx
    obtain ⟨e2, he2, c, hc, ht⟩ := t2c_value_sub input d x hxd
    exact ⟨e2, he2, c, hc, (truthyInt_eq_some c.id x).mp ht⟩
  · intro cb rv sn ts input hd hnd t cs hin
    rw [mkTagRecord_total_cards]
    unfold alGetD
    rw [alGet_of_mem_nodup input t cs hnd hin]
    rfl

theorem C10_falsy_ids_witness :
    (∀ x : Int,
      x ∈ alGetD (buildHierarchyFromCards wInput10).tag_to_cards wTagA [] ↔
        ∃ c ∈ [wCardNone, wCardZero, wCard 5], c.id = some x ∧ x ≠ 0) ∧
    (mkTagRecord wCb wRv [] [] wInput10
      (calculateHierarchicalCounts (buildHierarchyFromCards wInput10))
      wTagA).total_cards = 3 :=
  ⟨C10_falsy_ids.1 wInput10 (by decide) wTagA [wCardNone, wCardZero, wCard 5]
      (by decide),
    C10_falsy_ids.2.2.2.2.2⟩

theorem mkTagRecord_tag_name (cb : Int → Option PyCard)
    (rv : Int → List RevEntry) (sn ts : Str) (cbt : List (Tag × List PyCard))
    (hd : List (Tag × HEntry)) (t : Tag) :
    (mkTagRecord cb rv sn ts cbt hd t).tag_name = t := rfl

/-- Every proper join-of-prefix of an input tag reaches that tag through
child edges of the built hierarchy. -/
theorem ancestor_desc (input : List (Tag × List PyCard)) (d : Tag)
    (cs : List PyCard) (hin : (d, cs) ∈ input) :
    ∀ (j k : Nat), (splitCC d).length - k = j → 1 ≤ k →
      k ≤ (splitCC d).length →
      Relation.ReflTransGen (childEdge (buildHierarchyFromCards input).tag_hierarchy)
        (joinCC ((splitCC d).take k)) d := by
  intro j
  induction j with
  | zero =>
    intro k hj hk1 hk2
    have hkl : k = (splitCC d).length := by omega
    rw [hkl, List.take_length, joinCC_splitCC]
  | succ j ih =>
    intro k hj hk1 hk2
    have hlt : k < (splitCC d).length := by omega
    have hedge : joinCC ((splitCC d).take (k + 1)) ∈
        alGetD (buildHierarchyFromCards input).tag_hierarchy
          (joinCC ((splitCC d).take k)) [] := by
      refine (mem_hier_build input _ _).mpr ⟨(d, cs), hin, k - 1,
        ?_, ?_, ?_⟩
      · show k - 1 + 2 ≤ (splitCC d).length
        omega
      · show joinCC ((splitCC d).take k) = joinCC ((splitCC d).take (k - 1 + 1))
        have hkk : k - 1 + 1 = k := by omega
        rw [hkk]
      · show joinCC ((splitCC d).take (k + 1))
            = joinCC ((splitCC d).take (k - 1 + 2))
        have hkk : k - 1 + 2 = k + 1 := by omega
        rw [hkk]
    exact Relation.ReflTransGen.head hedge (ih (k + 1) (by omega) (by omega) hlt)

/-- C2 counterexample: on the input `wInput2` (one card with the falsy id
0 under `A::B`) the tag path `A` has zero direct cards and a descendant
with one card, and its record is produced with `total_cards = 0` — but
`hierarchical_total_cards` is 0, not positive, so the claim as stated is
false. -/
theorem C2_counterexample :
    wRec2A ∈ exportPipeline wCb wRv [] [] wInput2 ∧
      wRec2A.tag_name = wTagA ∧
      alGet wTagA wInput2 = none ∧
      alGet wTagAB wInput2 = some [wCardZero] ∧
      childEdge (buildHierarchyFromCards wInput2).tag_hierarchy wTagA wTagAB ∧
      wRec2A.total_cards = 0 ∧
      ¬ 0 < wRec2A.hierarchical_total_cards := by
  refine ⟨?_, rfl, by decide, by decide,
    by show wTagAB ∈ alGetD (buildHierarchyFromCards wInput2).tag_hierarchy wTagA []; decide,
    by decide, by decide⟩
  show wRec2A ∈ exportPipeline wCb wRv [] [] wInput2
  unfold exportPipeline createExportDataFast wRec2A
  refine List.mem_map.mpr ⟨wTagA, ?_, rfl⟩
  decide

/-- C2 amended: for every input mapping with distinct tags, every tag path
that is a proper prefix (ancestor path) of some input tag, has zero direct
cards, and has a descendant input tag carrying at least one card with a
truthy (present and nonzero) id, receives an output record with
`total_cards = 0` and `hierarchical_total_cards > 0`. -/
theorem C2_parent_only_record (cb : Int → Option PyCard)
    (rv : Int → List RevEntry) (sn ts : Str)
    (input : List (Tag × List PyCard)) (hnd : (input.map Prod.fst).Nodup)
    (t d : Tag) (k : Nat) (hk1 : 1 ≤ k) (hk2 : k < (splitCC d).length)
    (ht : t = joinCC ((splitCC d).take k)) (cs : List PyCard)
    (hdin : (d, cs) ∈ input)
    (hdirect : alGet t input = none ∨ alGet t input = some [])
    (c : PyCard) (hc : c ∈ cs) (n : Int) (hcid : c.id = some n) (hn : n ≠ 0) :
    ∃ r ∈ exportPipeline cb rv sn ts input,
      r.tag_name = t ∧ r.total_cards = 0 ∧ 0 < r.hierarchical_total_cards := by
  -- t is a hierarchy key, hence has a hierarchical-data entry
  have hedge : joinCC ((splitCC d).take (k + 1)) ∈
      alGetD (buildHierarchyFromCards input).tag_hierarchy t [] := by
    refine (mem_hier_build input _ _).mpr ⟨(d, cs), hdin, k - 1, ?_, ?_, ?_⟩
    · show k - 1 + 2 ≤ (splitCC d).length
      omega
    · show t = joinCC ((splitCC d).take (k - 1 + 1))
      have hkk : k - 1 + 1 = k := by omega
      rw [hkk]
      exact ht
    · show joinCC ((splitCC d).take (k + 1)) = joinCC ((splitCC d).take (k - 1 + 2))
      have hkk : k - 1 + 2 = k + 1 := by omega
      rw [hkk]
  have hkey : t ∈ (buildHierarchyFromCards input).tag_hierarchy.map Prod.fst := by
    refine (KeysNE_build input t).mpr ?_
    intro hnil
    rw [hnil] at hedge
    exact absurd hedge (by simp)
  have hsome : (alGet t (calculateHierarchicalCounts
      (buildHierarchyFromCards input))).isSome = true := by
    rw [calc_keys, mem_allTagsList]
    exact Or.inr hkey
  obtain ⟨e, he⟩ := Option.isSome_iff_exists.mp hsome
  -- the rolled-up set of t contains the truthy id n
  have hmemn : n ∈ e.all_unique_cards := by
    refine (calc_rollup_closed input t e he n).mpr ⟨d, ?_, ?_⟩
    · rw [ht]
      exact ancestor_desc input d cs hdin ((splitCC d).length - k) k rfl hk1
        (by omega)
    · unfold alGetD
      rw [t2c_value_build input hnd d cs hdin]
      show n ∈ idFold [] cs
      exact (mem_idFold cs [] n).mpr
        (Or.inr ⟨c, hc, (truthyInt_eq_some c.id n).mpr ⟨hcid, hn⟩⟩)
  have hcount : 0 < e.hierarchical_count := by
    rw [(calc_good input t e he).hcount]
    exact List.length_pos.mpr (List.ne_nil_of_mem hmemn)
  -- the record for t
  refine ⟨mkTagRecord cb rv sn ts input
    (calculateHierarchicalCounts (buildHierarchyFromCards input)) t, ?_, rfl, ?_, ?_⟩
  · unfold exportPipeline createExportDataFast
    refine List.mem_map.mpr ⟨t, ?_, rfl⟩
    rw [mem_pyUpdate]
    right
    rw [← alGet_isSome_iff]
    exact hsome
  · rw [mkTagRecord_total_cards]
    unfold alGetD
    rcases hdirect with hcase | hcase <;> rw [hcase] <;> rfl
  · rw [mkTagRecord_hier_total, he]
    simpa using hcount

theorem C2_parent_only_record_witness :
    ∃ r ∈ exportPipeline wCb wRv [] [] wInput1,
      r.tag_name = wTagA ∧ r.total_cards = 0 ∧
        0 < r.hierarchical_total_cards :=
  C2_parent_only_record wCb wRv [] [] wInput1 (by decide) wTagA wTagAB 1
    (by decide) (by decide) (by decide) [wCard 5] (by decide)
    (Or.inl (by decide)) (wCard 5) (by decide) 5 (by decide) (by decide)

theorem mkTagRecord_unstudied (cb : Int → Option PyCard)
    (rv : Int → List RevEntry) (sn ts : Str) (cbt : List (Tag × List PyCard))
    (hd : List (Tag × HEntry)) (t : Tag) :
    (mkTagRecord cb rv sn ts cbt hd t).unstudied_cards =
      (if hcPosOf (alGet t hd) then
        (rollupOf (alGet t hd)).countP fun cid =>
          match cb cid with
          | some c => c.reps == 0
          | none => true
      else (alGetD cbt t []).countP fun c => c.reps == 0) := rfl

/-- C6 counterexample: on `wInput6` the node `A` has a direct card
(`total_cards = 1`) whose direct unstudied count is 0, yet the produced
record reports `unstudied_cards = 1`: the code computes the field from
the rolled-up card set whenever the rolled-up count is positive, not only
when the direct count is zero, so the claim as stated is false. -/
theorem C6_counterexample :
    wRec6A ∈ exportPipeline wCb6 wRv [] [] wInput6 ∧
      wRec6A.tag_name = wTagA ∧
      wRec6A.total_cards = 1 ∧
      ([wCardR1].countP fun c => c.reps == 0) = 0 ∧
      wRec6A.unstudied_cards = 1 := by
  refine ⟨?_, rfl, by decide, by decide, by decide⟩
  show wRec6A ∈ exportPipeline wCb6 wRv [] [] wInput6
  unfold exportPipeline createExportDataFast wRec6A
  refine List.mem_map.mpr ⟨wTagA, ?_, rfl⟩
  decide

/-- C6 amended: for every record the pipeline produces, the tag has a
hierarchical-data entry, `hierarchical_total_cards` is that entry's
rolled-up count, and `unstudied_cards` is computed from the rolled-up
card set exactly when the rolled-up count is positive (regardless of the
direct count — a node with direct cards and a positive rolled-up count is
counted over the rollup), and from the direct card list otherwise. -/
theorem C6_unstudied_branch (cb : Int → Option PyCard)
    (rv : Int → List RevEntry) (sn ts : Str)
    (input : List (Tag × List PyCard)) (r : TagRecord)
    (hr : r ∈ exportPipeline cb rv sn ts input) :
    ∃ e, alGet r.tag_name
        (calculateHierarchicalCounts (buildHierarchyFromCards input)) = some e ∧
      r.hierarchical_total_cards = e.hierarchical_count ∧
      r.total_cards = (alGetD input r.tag_name []).length ∧
      r.unstudied_cards =
        (if 0 < e.hierarchical_count then
          e.all_unique_cards.countP fun cid =>
            match cb cid with
            | some c => c.reps == 0
            | none => true
        else (alGetD input r.tag_name []).countP fun c => c.reps == 0) := by
  obtain ⟨t, ht, rfl⟩ := (mem_exportPipeline cb rv sn ts input r).mp hr
  have hsome : (alGet t (calculateHierarchicalCounts
      (buildHierarchyFromCards input))).isSome = true := by
    rw [mem_pyUpdate, mem_pyUpdate] at ht
    rcases ht with (ht | ht) | ht
    · simp at ht
    · rw [calc_keys, mem_allTagsList]
      left
      rw [keys_t2c_build]
      exact ht
    · exact (alGet_isSome_iff _ _).mpr ht
  obtain ⟨e, he⟩ := Option.isSome_iff_exists.mp hsome
  rw [mkTagRecord_tag_name]
  refine ⟨e, he, ?_, rfl, ?_⟩
  · rw [mkTagRecord_hier_total, he]
    rfl
  · rw [mkTagRecord_unstudied, he]
    show (if hcPosOf (some e) then _ else _) = _
    by_cases hpos : 0 < e.hierarchical_count
    · rw [if_pos (by show hcPosOf (some e) = true; simp [hcPosOf, hpos]),
        if_pos hpos]
      rfl
    · rw [if_neg (by show ¬ hcPosOf (some e) = true; simp [hcPosOf, hpos]),
        if_neg hpos]

theorem C6_unstudied_branch_witness :
    ∃ e, alGet wRec6A.tag_name
        (calculateHierarchicalCounts (buildHierarchyFromCards wInput6)) = some e ∧
      wRec6A.hierarchical_total_cards = e.hierarchical_count ∧
      wRec6A.total_cards = (alGetD wInput6 wRec6A.tag_name []).length ∧
      wRec6A.unstudied_cards =
        (if 0 < e.hierarchical_count then
          e.all_unique_cards.countP fun cid =>
            match wCb6 cid with
            | some c => c.reps == 0
            | none => true
        else (alGetD wInput6 wRec6A.tag_name []).countP fun c => c.reps == 0) :=
  C6_unstudied_branch wCb6 wRv [] [] wInput6 wRec6A (by
    show wRec6A ∈ exportPipeline wCb6 wRv [] [] wInput6
    unfold exportPipeline createExportDataFast wRec6A
    refine List.mem_map.mpr ⟨wTagA, ?_, rfl⟩
    decide)

theorem writeLoop_append_fail {α : Type} (ser : α → Option Str) (pre : List α)
    (r : α) (post : List α) (acc : List Str)
    (hpre : ∀ q ∈ pre, (ser q).isSome = true) (hr : ser r = none) :
    writeLoop ser (pre ++ r :: post) acc = (acc ++ pre.filterMap ser, false) := by
  induction pre generalizing acc with
  | nil =>
    show writeLoop ser (r :: post) acc = _
    unfold writeLoop
    rw [hr, List.filterMap_nil, List.append_nil]
  | cons q pre ih =>
    obtain ⟨l, hl⟩ := Option.isSome_iff_exists.mp (hpre q (by simp))
    show writeLoop ser (q :: (pre ++ r :: post)) acc = _
    unfold writeLoop
    rw [hl]
    show writeLoop ser (pre ++ r :: post) (acc ++ [l]) = _
    rw [ih _ (fun q2 hq2 => hpre q2 (by simp [hq2]))]
    simp only [List.filterMap_cons, hl, List.append_assoc]
    rfl

/-- C9 counterexample: with a record that cannot be serialized, the gzip
sink signals failure (returns the empty path) but a partial file remains
at the output location — the code writes directly to the final path and
neither uses a temporary file nor deletes on failure, so the claim as
stated is false. -/
theorem C9_counterexample :
    wSer 1 = none ∧
      (compressToGzipFast wSer true wFs0 [0, 1] wPath).2 = [] ∧
      (compressToGzipFast wSer true wFs0 [0, 1] wPath).1 wPath
        = some [['x']] := by
  refine ⟨rfl, ?_, ?_⟩ <;> decide

/-- C9 amended: the gzip sink never raises past its boundary (it always
returns either the output path, on success, or the empty string, on
failure); a failed open leaves the file system untouched; but when the
sink opens and some record fails to serialize, the call returns the empty
string while the partially written file — the lines of the longest
successfully serialized prefix — remains at the output location. -/
theorem C9_failure_leaves_partial {α : Type} (ser : α → Option Str)
    (fs : Str → Option (List Str)) (path : Str) (pre : List α) (r : α)
    (post : List α) (hpre : ∀ q ∈ pre, (ser q).isSome = true)
    (hr : ser r = none) :
    (compressToGzipFast ser true fs (pre ++ r :: post) path).2 = [] ∧
      (compressToGzipFast ser true fs (pre ++ r :: post) path).1 path
        = some (pre.filterMap ser) ∧
      (∀ (openOk : Bool) (data : List α),
        (compressToGzipFast ser openOk fs data path).2 = path ∨
        (compressToGzipFast ser openOk fs data path).2 = []) ∧
      (compressToGzipFast ser false fs (pre ++ r :: post) path).1 = fs := by
  have hw := writeLoop_append_fail ser pre r post [] hpre hr
  refine ⟨?_, ?_, ?_, rfl⟩
  · unfold compressToGzipFast
    rw [if_pos rfl]
    dsimp only
    rw [hw]
    rfl
  · unfold compressToGzipFast
    rw [if_pos rfl]
    dsimp only
    rw [if_pos rfl, hw]
    simp
  · intro openOk data
    unfold compressToGzipFast
    rcases openOk with _ | _
    · right
      rfl
    · rw [if_pos rfl]
      rcases hb : (writeLoop ser data []).2 with _ | _
      · right
        show (if (writeLoop ser data []).2 = true then path else []) = []
        rw [hb]
        rfl
      · left
        show (if (writeLoop ser data []).2 = true then path else []) = path
        rw [hb]
        rfl

theorem C9_failure_leaves_partial_witness :
    (compressToGzipFast wSer true wFs0 ([0] ++ 1 :: []) wPath).2 = [] ∧
      (compressToGzipFast wSer true wFs0 ([0] ++ 1 :: []) wPath).1 wPath
        = some ([0].filterMap wSer) ∧
      (∀ (openOk : Bool) (data : List Nat),
        (compressToGzipFast wSer openOk wFs0 data wPath).2 = wPath ∨
        (compressToGzipFast wSer openOk wFs0 data wPath).2 = []) ∧
      (compressToGzipFast wSer false wFs0 ([0] ++ 1 :: []) wPath).1 = wFs0 :=
  C9_failure_leaves_partial wSer wFs0 wPath [0] 1 [] (by decide) (by decide)

theorem ysSet_length (ys : List YieldStat) (lvl : Nat) (v : YieldStat) :
    (ysSet ys lvl v).length = ys.length := List.length_set ys _ v

theorem ysAt_ysSet_self (ys : List YieldStat) (lvl : Nat) (v : YieldStat)
    (h : lvl - 1 < ys.length) : ysAt (ysSet ys lvl v) lvl = v := by
  unfold ysAt ysSet
  rw [List.getD_eq_getElem?_getD, List.getElem?_set_self h]
  rfl

theorem ysAt_ysSet_ne (ys : List YieldStat) (lvl1 lvl2 : Nat) (v : YieldStat)
    (h : lvl1 - 1 ≠ lvl2 - 1) : ysAt (ysSet ys lvl1 v) lvl2 = ysAt ys lvl2 := by
  unfold ysAt ysSet
  rw [List.getD_eq_getElem?_getD, List.getElem?_set_ne h,
    ← List.getD_eq_getElem?_getD]

theorem ysSet_oob (ys : List YieldStat) (lvl : Nat) (v : YieldStat)
    (h : ys.length ≤ lvl - 1) : ysSet ys lvl v = ys :=
  List.set_eq_of_length_le h

theorem pyfStep_comm (cb : Int → Option PyCard) (a b : Int)
    (ys : List YieldStat) :
    pyfStep cb (pyfStep cb ys a) b = pyfStep cb (pyfStep cb ys b) a := by
  unfold pyfStep
  rcases ha : cb a with _ | ca <;> rcases hb : cb b with _ | cbs <;>
    simp only [ha, hb] <;> try rfl
  by_cases hla : firstCardYieldLevel ca.tags > 0
  · by_cases hlb : firstCardYieldLevel cbs.tags > 0
    · rw [if_pos hla, if_pos hlb, if_pos hla, if_pos hlb]
      by_cases heq : firstCardYieldLevel ca.tags = firstCardYieldLevel cbs.tags
      · rw [← heq]
        by_cases hlen : firstCardYieldLevel ca.tags - 1 < ys.length
        · rw [ysAt_ysSet_self _ _ _ hlen, ysAt_ysSet_self _ _ _ hlen]
          unfold ysSet
          rw [List.set_set, List.set_set]
          congr 1
          simp only [YieldStat.mk.injEq]
          exact ⟨trivial, add_right_comm _ _ _, add_right_comm _ _ _⟩
        · have hoob : ∀ v, ysSet ys (firstCardYieldLevel ca.tags) v = ys :=
            fun v => ysSet_oob ys _ v (by omega)
          simp only [hoob]
      · have hne : firstCardYieldLevel ca.tags - 1 ≠
            firstCardYieldLevel cbs.tags - 1 := by omega
        rw [ysAt_ysSet_ne _ _ _ _ hne, ysAt_ysSet_ne _ _ _ _ (by omega)]
        unfold ysSet
        exact List.set_comm _ _ ys (by omega)
    · simp only [if_pos hla, if_neg hlb]
  · by_cases hlb : firstCardYieldLevel cbs.tags > 0
    · simp only [if_neg hla, if_pos hlb]
    · simp only [if_neg hla, if_neg hlb]

theorem parentYieldFold_perm (cb : Int → Option PyCard) (ids1 ids2 : List Int)
    (h : ids1.Perm ids2) :
    parentYieldFold cb ids1 = parentYieldFold cb ids2 :=
  h.foldl_eq' (fun x _ y _ z => pyfStep_comm cb x y z) ysInit

theorem nodup_hier_edge_foldl (parts : List Str) (l : List Nat)
    (hier : List (Tag × List Tag)) (h : ∀ q, (alGetD hier q []).Nodup) (q : Tag) :
    (alGetD (l.foldl
      (fun h i =>
        addEdge h (joinCC (parts.take (i + 1))) (joinCC (parts.take (i + 2))))
      hier) q []).Nodup := by
  induction l generalizing hier with
  | nil => exact h q
  | cons a l ih =>
    rw [List.foldl_cons]
    refine ih _ ?_
    intro q2
    rw [alGetD_addEdge]
    by_cases hq : q2 = joinCC (parts.take (a + 1))
    · rw [if_pos hq]
      exact nodup_pyInsert _ _ (h _)
    · rw [if_neg hq]
      exact h q2

theorem nodup_hier_bthf (hier : List (Tag × List Tag)) (t : Tag)
    (h : ∀ q, (alGetD hier q []).Nodup) (q : Tag) :
    (alGetD (buildTagHierarchyFast hier t) q []).Nodup := by
  unfold buildTagHierarchyFast
  by_cases hcc : hasCC t = false
  · rw [if_pos hcc]
    exact h q
  · rw [if_neg hcc]
    exact nodup_hier_edge_foldl _ _ _ h q

theorem nodup_hier_foldl (l : List (Tag × List PyCard)) (st : CounterState)
    (h : ∀ q, (alGetD st.tag_hierarchy q []).Nodup) (q : Tag) :
    (alGetD ((l.foldl buildStep st).tag_hierarchy) q []).Nodup := by
  induction l generalizing st with
  | nil => exact h q
  | cons a l ih =>
    rw [List.foldl_cons]
    refine ih _ ?_
    intro q2
    exact nodup_hier_bthf _ _ h q2

theorem nodup_hier_build (input : List (Tag × List PyCard)) (q : Tag) :
    (alGetD (buildHierarchyFromCards input).tag_hierarchy q []).Nodup := by
  refine nodup_hier_foldl input _ ?_ q
  intro q2
  simp [alGetD, alGet]

theorem mem_nidFold (cards : List PyCard) (base : List Int) (x : Int) :
    x ∈ nidFold base cards ↔
      x ∈ base ∨ ∃ c ∈ cards, truthyInt c.nid = some x := by
  induction cards generalizing base with
  | nil => simp [nidFold]
  | cons a l ih =>
    simp only [nidFold, List.foldl_cons]
    rcases h : truthyInt a.nid with _ | n
    · show x ∈ nidFold base l ↔ _
      rw [ih]
      constructor
      · rintro (hb | ⟨c, hc, ht⟩)
        · exact Or.inl hb
        · exact Or.inr ⟨c, by simp [hc], ht⟩
      · rintro (hb | ⟨c, hc, ht⟩)
        · exact Or.inl hb
        · rcases List.mem_cons.mp hc with rfl | hc2
          · rw [h] at ht
            exact absurd ht (by simp)
          · exact Or.inr ⟨c, hc2, ht⟩
    · show x ∈ nidFold (pyInsert base n) l ↔ _
      rw [ih]
      constructor
      · rintro (hb | ⟨c, hc, ht⟩)
        · rcases (mem_pyInsert base n x).mp hb with hb2 | rfl
          · exact Or.inl hb2
          · exact Or.inr ⟨a, by simp, by rw [h]⟩
        · exact Or.inr ⟨c, by simp [hc], ht⟩
      · rintro (hb | ⟨c, hc, ht⟩)
        · exact Or.inl ((mem_pyInsert base n x).mpr (Or.inl hb))
        · rcases List.mem_cons.mp hc with rfl | hc2
          · rw [h] at ht
            have hnx : n = x := by injection ht
            exact Or.inl ((mem_pyInsert base n x).mpr (Or.inr hnx.symm))
          · exact Or.inr ⟨c, hc2, ht⟩

theorem nodup_nidFold (cards : List PyCard) (base : List Int) (h : base.Nodup) :
    (nidFold base cards).Nodup := by
  induction cards generalizing base with
  | nil => exact h
  | cons a l ih =>
    simp only [nidFold, List.foldl_cons]
    rcases ht : truthyInt a.nid with _ | n
    · exact ih _ h
    · exact ih _ (nodup_pyInsert base n h)

theorem mem_pnidFold (cb : Int → Option PyCard) (ids : List Int)
    (base : List Int) (x : Int) :
    x ∈ pnidFold cb base ids ↔
      x ∈ base ∨
        ∃ cid ∈ ids, ∃ c, cb cid = some c ∧ truthyInt c.nid = some x := by
  induction ids generalizing base with
  | nil => simp [pnidFold]
  | cons a l ih =>
    simp only [pnidFold, List.foldl_cons]
    rcases hcb : cb a with _ | c0
    · show x ∈ pnidFold cb base l ↔ _
      rw [ih]
      constructor
      · rintro (hb | ⟨cid, hcid, c, hc, ht⟩)
        · exact Or.inl hb
        · exact Or.inr ⟨cid, by simp [hcid], c, hc, ht⟩
      · rintro (hb | ⟨cid, hcid, c, hc, ht⟩)
        · exact Or.inl hb
        · rcases List.mem_cons.mp hcid with rfl | hc2
          · rw [hcb] at hc
            exact absurd hc (by simp)
          · exact Or.inr ⟨cid, hc2, c, hc, ht⟩
    · dsimp only
      rcases hnid : truthyInt c0.nid with _ | n
      · show x ∈ pnidFold cb base l ↔ _
        rw [ih]
        constructor
        · rintro (hb | ⟨cid, hcid, c, hc, ht⟩)
          · exact Or.inl hb
          · exact Or.inr ⟨cid, by simp [hcid], c, hc, ht⟩
        · rintro (hb | ⟨cid, hcid, c, hc, ht⟩)
          · exact Or.inl hb
          · rcases List.mem_cons.mp hcid with rfl | hc2
            · rw [hcb] at hc
              have hc0 : c0 = c := by injection hc
              rw [← hc0, hnid] at ht
              exact absurd ht (by simp)
            · exact Or.inr ⟨cid, hc2, c, hc, ht⟩
      · show x ∈ pnidFold cb (pyInsert base n) l ↔ _
        rw [ih]
        constructor
        · rintro (hb | ⟨cid, hcid, c, hc, ht⟩)
          · rcases (mem_pyInsert base n x).mp hb with hb2 | rfl
            · exact Or.inl hb2
            · exact Or.inr ⟨a, by simp, c0, hcb, hnid⟩
          · exact Or.inr ⟨cid, by simp [hcid], c, hc, ht⟩
        · rintro (hb | ⟨cid, hcid, c, hc, ht⟩)
          · exact Or.inl ((mem_pyInsert base n x).mpr (Or.inl hb))
          · rcases List.mem_cons.mp hcid with rfl | hc2
            · rw [hcb] at hc
              have hc0 : c0 = c := by injection hc
              rw [← hc0, hnid] at ht
              have hnx : n = x := by injection ht
              exact Or.inl ((mem_pyInsert base n x).mpr (Or.inr hnx.symm))
            · exact Or.inr ⟨cid, hc2, c, hc, ht⟩

theorem nodup_pnidFold (cb : Int → Option PyCard) (ids : List Int)
    (base : List Int) (h : base.Nodup) : (pnidFold cb base ids).Nodup := by
  induction ids generalizing base with
  | nil => exact h
  | cons a l ih =>
    simp only [pnidFold, List.foldl_cons]
    rcases hcb : cb a with _ | c0
    · exact ih _ h
    · dsimp only
      rcases hnid : truthyInt c0.nid with _ | n
      · exact ih _ h
      · exact ih _ (nodup_pyInsert base n h)

theorem leafNoteIds_perm (cards1 cards2 : List PyCard) (h : cards1.Perm cards2) :
    (leafNoteIds cards1).Perm (leafNoteIds cards2) := by
  have e1 : leafNoteIds cards1 = nidFold [] cards1 := rfl
  have e2 : leafNoteIds cards2 = nidFold [] cards2 := rfl
  rw [e1, e2]
  refine (List.perm_ext_iff_of_nodup (nodup_nidFold _ _ List.nodup_nil)
    (nodup_nidFold _ _ List.nodup_nil)).mpr ?_
  intro x
  rw [mem_nidFold, mem_nidFold]
  constructor
  · rintro (hb | ⟨c, hc, ht⟩)
    · exact Or.inl hb
    · exact Or.inr ⟨c, h.mem_iff.mp hc, ht⟩
  · rintro (hb | ⟨c, hc, ht⟩)
    · exact Or.inl hb
    · exact Or.inr ⟨c, h.mem_iff.mpr hc, ht⟩

theorem parentNoteIds_perm (cb : Int → Option PyCard) (ids1 ids2 : List Int)
    (h : ids1.Perm ids2) :
    (parentNoteIds cb ids1).Perm (parentNoteIds cb ids2) := by
  have e1 : parentNoteIds cb ids1 = pnidFold cb [] ids1 := rfl
  have e2 : parentNoteIds cb ids2 = pnidFold cb [] ids2 := rfl
  rw [e1, e2]
  refine (List.perm_ext_iff_of_nodup (nodup_pnidFold _ _ _ List.nodup_nil)
    (nodup_pnidFold _ _ _ List.nodup_nil)).mpr ?_
  intro x
  rw [mem_pnidFold, mem_pnidFold]
  constructor
  · rintro (hb | ⟨cid, hcid, c, hc, ht⟩)
    · exact Or.inl hb
    · exact Or.inr ⟨cid, h.mem_iff.mp hcid, c, hc, ht⟩
  · rintro (hb | ⟨cid, hcid, c, hc, ht⟩)
    · exact Or.inl hb
    · exact Or.inr ⟨cid, h.mem_iff.mpr hcid, c, hc, ht⟩

theorem leafAvgs_perm (cards1 cards2 : List PyCard) (h : cards1.Perm cards2) :
    leafAvgs cards1 = leafAvgs cards2 := by
  unfold leafAvgs
  rw [h.length_eq, (h.map fun c => (c.factor : ℚ)).sum_eq,
    (h.map fun c => (c.ivl : ℚ)).sum_eq, (h.map fun c => c.lapses).sum_eq,
    (leafNoteIds_perm cards1 cards2 h).length_eq]

theorem parentAvgs_perm (cb : Int → Option PyCard) (ids1 ids2 : List Int)
    (h : ids1.Perm ids2) : parentAvgs cb ids1 = parentAvgs cb ids2 := by
  unfold parentAvgs
  rw [h.countP_eq, (h.map (lkV cb fun c => c.factor)).sum_eq,
    (h.map (lkV cb fun c => c.ivl)).sum_eq,
    (h.map (lkV cb fun c => c.lapses)).sum_eq,
    (parentNoteIds_perm cb ids1 ids2 h).length_eq]

theorem revStatsOf_perm (logs1 logs2 : List RevEntry) (h : logs1.Perm logs2) :
    revStatsOf logs1 = revStatsOf logs2 := by
  unfold revStatsOf
  rw [h.length_eq, (h.map fun lg => lg.time).sum_eq,
    h.countP_eq (fun lg => lg.ease == 1), h.countP_eq (fun lg => lg.ease == 2),
    h.countP_eq (fun lg => lg.ease == 3), h.countP_eq (fun lg => lg.ease == 4)]

theorem leafYieldStats_perm (cards1 cards2 : List PyCard) (h : cards1.Perm cards2) :
    leafYieldStats cards1 = leafYieldStats cards2 := by
  unfold leafYieldStats
  refine List.map_congr_left ?_
  intro lvl _
  have hf : (getCardsByYieldLevel cards1 lvl).Perm (getCardsByYieldLevel cards2 lvl) :=
    h.filter _
  dsimp only
  rw [hf.length_eq, hf.countP_eq (fun c => c.reps == 0),
    hf.countP_eq (fun c => c.queue == 2)]

theorem cardDetailsOf_perm (cards1 cards2 : List PyCard) (h : cards1.Perm cards2) :
    (cardDetailsOf cards1).Perm (cardDetailsOf cards2) := by
  unfold cardDetailsOf
  rw [h.length_eq]
  by_cases hl : 0 < cards2.length
  · rw [if_pos hl, if_pos hl]
    exact (h.filter _).map _
  · rw [if_neg hl, if_neg hl]

theorem hcPosOf_corr (o1 o2 : Option HEntry) (h : OCorr o1 o2) :
    hcPosOf o1 = hcPosOf o2 := by
  rcases o1 with _ | e1 <;> rcases o2 with _ | e2
  · rfl
  · exact (h : False).elim
  · exact (h : False).elim
  · have h2 : HCorr e1 e2 := h
    show decide (0 < e1.hierarchical_count) = decide (0 < e2.hierarchical_count)
    rw [h2.hcount]

theorem rollupOf_perm (o1 o2 : Option HEntry) (h : OCorr o1 o2) :
    (rollupOf o1).Perm (rollupOf o2) := by
  rcases o1 with _ | e1 <;> rcases o2 with _ | e2
  · exact List.Perm.refl _
  · exact (h : False).elim
  · exact (h : False).elim
  · have h2 : HCorr e1 e2 := h
    exact h2.all

theorem ocorr_hcount (o1 o2 : Option HEntry) (h : OCorr o1 o2) (n : Nat) :
    ((o1.map fun e => e.hierarchical_count).getD n) =
      ((o2.map fun e => e.hierarchical_count).getD n) := by
  rcases o1 with _ | e1 <;> rcases o2 with _ | e2
  · rfl
  · exact (h : False).elim
  · exact (h : False).elim
  · have h2 : HCorr e1 e2 := h
    show e1.hierarchical_count = e2.hierarchical_count
    exact h2.hcount

theorem ocorr_ccount (o1 o2 : Option HEntry) (h : OCorr o1 o2) :
    ((o1.map fun e => e.children_count).getD 0) =
      ((o2.map fun e => e.children_count).getD 0) := by
  rcases o1 with _ | e1 <;> rcases o2 with _ | e2
  · rfl
  · exact (h : False).elim
  · exact (h : False).elim
  · have h2 : HCorr e1 e2 := h
    show e1.children_count = e2.children_count
    exact h2.ccount

theorem ocorr_children (o1 o2 : Option HEntry) (h : OCorr o1 o2) :
    ((o1.map fun e => e.children_tags).getD []).Perm
      ((o2.map fun e => e.children_tags).getD []) := by
  rcases o1 with _ | e1 <;> rcases o2 with _ | e2
  · exact List.Perm.refl _
  · exact (h : False).elim
  · exact (h : False).elim
  · have h2 : HCorr e1 e2 := h
    show e1.children_tags.Perm e2.children_tags
    exact h2.children

theorem ocorr_parents (o1 o2 : Option HEntry) (h : OCorr o1 o2) :
    ((o1.map fun e => e.parent_tags).getD []) =
      ((o2.map fun e => e.parent_tags).getD []) := by
  rcases o1 with _ | e1 <;> rcases o2 with _ | e2
  · rfl
  · exact (h : False).elim
  · exact (h : False).elim
  · have h2 : HCorr e1 e2 := h
    show e1.parent_tags = e2.parent_tags
    exact h2.parents

theorem stateCountOf_corr (cb : Int → Option PyCard) (cards1 cards2 : List PyCard)
    (o1 o2 : Option HEntry) (p : PyCard → Bool) (hc : cards1.Perm cards2)
    (ho : OCorr o1 o2) :
    stateCountOf cb cards1 o1 p = stateCountOf cb cards2 o2 p := by
  unfold stateCountOf
  rw [hc.length_eq, hcPosOf_corr o1 o2 ho,
    (rollupOf_perm o1 o2 ho).countP_eq (lkP cb p), hc.countP_eq p]

theorem avgsOf_corr (cb : Int → Option PyCard) (cards1 cards2 : List PyCard)
    (o1 o2 : Option HEntry) (hc : cards1.Perm cards2) (ho : OCorr o1 o2) :
    avgsOf cb cards1 o1 = avgsOf cb cards2 o2 := by
  unfold avgsOf
  rw [hc.length_eq, hcPosOf_corr o1 o2 ho, leafAvgs_perm cards1 cards2 hc,
    parentAvgs_perm cb _ _ (rollupOf_perm o1 o2 ho)]

theorem revsOf_corr (rv : Int → List RevEntry) (cards1 cards2 : List PyCard)
    (o1 o2 : Option HEntry) (hc : cards1.Perm cards2) (ho : OCorr o1 o2) :
    revsOf rv cards1 o1 = revsOf rv cards2 o2 := by
  unfold revsOf
  rw [hc.length_eq, hcPosOf_corr o1 o2 ho,
    revStatsOf_perm _ _ (hc.flatMap_right fun c => revlogsOfId rv c.id),
    revStatsOf_perm _ _ ((rollupOf_perm o1 o2 ho).flatMap_right rv)]

theorem yieldStatsOf_corr (cb : Int → Option PyCard) (cards1 cards2 : List PyCard)
    (o1 o2 : Option HEntry) (t : Tag) (hc : cards1.Perm cards2) (ho : OCorr o1 o2) :
    yieldStatsOf cb cards1 o1 t = yieldStatsOf cb cards2 o2 t := by
  unfold yieldStatsOf
  rw [hc.length_eq, hc.countP_eq (fun c => c.reps == 0),
    hc.countP_eq (fun c => c.queue == 2), hcPosOf_corr o1 o2 ho,
    parentYieldFold_perm cb _ _ (rollupOf_perm o1 o2 ho),
    leafYieldStats_perm cards1 cards2 hc]

theorem unstudiedOf_corr (cb : Int → Option PyCard) (cards1 cards2 : List PyCard)
    (o1 o2 : Option HEntry) (hc : cards1.Perm cards2) (ho : OCorr o1 o2) :
    unstudiedOf cb cards1 o1 = unstudiedOf cb cards2 o2 := by
  unfold unstudiedOf
  rw [hcPosOf_corr o1 o2 ho, (rollupOf_perm o1 o2 ho).countP_eq _, hc.countP_eq _]

theorem sp_t2c_perm (in1 in2 : List (Tag × List PyCard)) (h : SamePermInput in1 in2)
    (t : Tag) :
    (alGetD (buildHierarchyFromCards in1).tag_to_cards t []).Perm
      (alGetD (buildHierarchyFromCards in2).tag_to_cards t []) := by
  obtain ⟨hnd1, hnd2, hkeys, hvals⟩ := h
  by_cases hmem : t ∈ in1.map Prod.fst
  · obtain ⟨p1, hp1, hfst1⟩ := List.mem_map.mp hmem
    obtain ⟨p2, hp2, hfst2⟩ := List.mem_map.mp (hkeys.mem_iff.mp hmem)
    have hg1 : alGet t in1 = some p1.2 :=
      alGet_of_mem_nodup in1 t p1.2 hnd1 (by rw [← hfst1]; exact hp1)
    have hg2 : alGet t in2 = some p2.2 :=
      alGet_of_mem_nodup in2 t p2.2 hnd2 (by rw [← hfst2]; exact hp2)
    have hv := hvals t
    rw [hg1, hg2, Option.getD_some, Option.getD_some] at hv
    have ht1 : alGet t (buildHierarchyFromCards in1).tag_to_cards
        = some (idFold [] p1.2) :=
      t2c_value_build in1 hnd1 t p1.2 (by rw [← hfst1]; exact hp1)
    have ht2 : alGet t (buildHierarchyFromCards in2).tag_to_cards
        = some (idFold [] p2.2) :=
      t2c_value_build in2 hnd2 t p2.2 (by rw [← hfst2]; exact hp2)
    unfold alGetD
    rw [ht1, ht2, Option.getD_some, Option.getD_some]
    refine (List.perm_ext_iff_of_nodup (nodup_idFold _ _ List.nodup_nil)
      (nodup_idFold _ _ List.nodup_nil)).mpr ?_
    intro x
    rw [mem_idFold, mem_idFold]
    constructor
    · rintro (hb | ⟨c, hcmem, hct⟩)
      · exact absurd hb (by simp)
      · exact Or.inr ⟨c, hv.mem_iff.mp hcmem, hct⟩
    · rintro (hb | ⟨c, hcmem, hct⟩)
      · exact absurd hb (by simp)
      · exact Or.inr ⟨c, hv.mem_iff.mpr hcmem, hct⟩
  · have hmem2 : t ∉ in2.map Prod.fst := fun hx => hmem (hkeys.mem_iff.mpr hx)
    have ht1 : alGet t (buildHierarchyFromCards in1).tag_to_cards = none :=
      alGet_eq_none_of_not_mem _ t fun hx => hmem ((keys_t2c_build in1 t).mp hx)
    have ht2 : alGet t (buildHierarchyFromCards in2).tag_to_cards = none :=
      alGet_eq_none_of_not_mem _ t fun hx => hmem2 ((keys_t2c_build in2 t).mp hx)
    unfold alGetD
    rw [ht1, ht2]

theorem sp_edge_iff (in1 in2 : List (Tag × List PyCard)) (h : SamePermInput in1 in2)
    (p c : Tag) :
    c ∈ alGetD (buildHierarchyFromCards in1).tag_hierarchy p [] ↔
      c ∈ alGetD (buildHierarchyFromCards in2).tag_hierarchy p [] := by
  rw [mem_hier_build, mem_hier_build]
  constructor
  · rintro ⟨e, he, hg⟩
    obtain ⟨e2, he2, hfst⟩ := List.mem_map.mp
      (h.2.2.1.mem_iff.mp (List.mem_map.mpr ⟨e, he, rfl⟩))
    exact ⟨e2, he2, by rw [hfst]; exact hg⟩
  · rintro ⟨e, he, hg⟩
    obtain ⟨e2, he2, hfst⟩ := List.mem_map.mp
      (h.2.2.1.mem_iff.mpr (List.mem_map.mpr ⟨e, he, rfl⟩))
    exact ⟨e2, he2, by rw [hfst]; exact hg⟩

theorem sp_hierKeys_iff (in1 in2 : List (Tag × List PyCard))
    (h : SamePermInput in1 in2) (p : Tag) :
    p ∈ ((buildHierarchyFromCards in1).tag_hierarchy).map Prod.fst ↔
      p ∈ ((buildHierarchyFromCards in2).tag_hierarchy).map Prod.fst := by
  rw [KeysNE_build in1 p, KeysNE_build in2 p, ne_eq, ne_eq,
    List.eq_nil_iff_forall_not_mem, List.eq_nil_iff_forall_not_mem]
  exact not_congr (forall_congr' fun c => not_congr (sp_edge_iff in1 in2 h p c))

theorem sp_allTags_iff (in1 in2 : List (Tag × List PyCard))
    (h : SamePermInput in1 in2) (t : Tag) :
    t ∈ allTagsList (buildHierarchyFromCards in1).tag_to_cards
        (buildHierarchyFromCards in1).tag_hierarchy ↔
      t ∈ allTagsList (buildHierarchyFromCards in2).tag_to_cards
        (buildHierarchyFromCards in2).tag_hierarchy := by
  rw [mem_allTagsList, mem_allTagsList, keys_t2c_build, keys_t2c_build]
  exact or_congr h.2.2.1.mem_iff (sp_hierKeys_iff in1 in2 h t)

theorem sp_hd_isSome (in1 in2 : List (Tag × List PyCard))
    (h : SamePermInput in1 in2) (t : Tag) :
    (alGet t (calculateHierarchicalCounts (buildHierarchyFromCards in1))).isSome =
      (alGet t (calculateHierarchicalCounts (buildHierarchyFromCards in2))).isSome := by
  have hiff : ((alGet t (calculateHierarchicalCounts
          (buildHierarchyFromCards in1))).isSome = true) ↔
      ((alGet t (calculateHierarchicalCounts
          (buildHierarchyFromCards in2))).isSome = true) := by
    rw [calc_keys, calc_keys]
    exact sp_allTags_iff in1 in2 h t
  exact Bool.eq_iff_iff.mpr hiff

theorem sp_hd_entry (in1 in2 : List (Tag × List PyCard))
    (h : SamePermInput in1 in2) (t : Tag) (e1 e2 : HEntry)
    (he1 : alGet t (calculateHierarchicalCounts (buildHierarchyFromCards in1))
      = some e1)
    (he2 : alGet t (calculateHierarchicalCounts (buildHierarchyFromCards in2))
      = some e2) :
    HCorr e1 e2 := by
  have g1 := calc_good in1 t e1 he1
  have g2 := calc_good in2 t e2 he2
  have hdir : e1.direct_cards.Perm e2.direct_cards := by
    rw [g1.direct, g2.direct]
    exact sp_t2c_perm in1 in2 h t
  have hall : e1.all_unique_cards.Perm e2.all_unique_cards := by
    refine (List.perm_ext_iff_of_nodup g1.nodup g2.nodup).mpr ?_
    intro x
    rw [calc_rollup_closed in1 t e1 he1 x, calc_rollup_closed in2 t e2 he2 x]
    constructor
    · rintro ⟨d, hrt, hx⟩
      refine ⟨d, ?_, (sp_t2c_perm in1 in2 h d).mem_iff.mp hx⟩
      exact Relation.ReflTransGen.mono
        (fun a b hab => (sp_edge_iff in1 in2 h a b).mp hab) hrt
    · rintro ⟨d, hrt, hx⟩
      refine ⟨d, ?_, (sp_t2c_perm in1 in2 h d).mem_iff.mpr hx⟩
      exact Relation.ReflTransGen.mono
        (fun a b hab => (sp_edge_iff in1 in2 h a b).mpr hab) hrt
  refine ⟨hdir, hall, ?_, ?_, ?_, ?_, ?_⟩
  · rw [g1.dcount, g2.dcount, hdir.length_eq]
  · rw [g1.hcount, g2.hcount, hall.length_eq]
  · rw [g1.ccount, g2.ccount, g1.dcount, g2.dcount, g1.hcount, g2.hcount,
      hdir.length_eq, hall.length_eq]
  · rw [g1.children, g2.children]
    refine (List.perm_ext_iff_of_nodup (nodup_hier_build in1 t)
      (nodup_hier_build in2 t)).mpr ?_
    intro c
    exact sp_edge_iff in1 in2 h t c
  · rw [g1.parents, g2.parents]

theorem sp_hd_ocorr (in1 in2 : List (Tag × List PyCard))
    (h : SamePermInput in1 in2) (t : Tag) :
    OCorr (alGet t (calculateHierarchicalCounts (buildHierarchyFromCards in1)))
      (alGet t (calculateHierarchicalCounts (buildHierarchyFromCards in2))) := by
  have hs := sp_hd_isSome in1 in2 h t
  rcases he1 : alGet t (calculateHierarchicalCounts (buildHierarchyFromCards in1))
    with _ | e1 <;>
    rcases he2 : alGet t (calculateHierarchicalCounts (buildHierarchyFromCards in2))
      with _ | e2 <;> rw [he1, he2] at hs
  · exact True.intro
  · simp at hs
  · simp at hs
  · exact sp_hd_entry in1 in2 h t e1 e2 he1 he2

theorem mkTagRecord_service_name (cb : Int → Option PyCard)
    (rv : Int → List RevEntry) (sn ts : Str) (cbt : List (Tag × List PyCard))
    (hd : List (Tag × HEntry)) (t : Tag) :
    (mkTagRecord cb rv sn ts cbt hd t).service_name = sn := rfl

theorem mkTagRecord_timestamp (cb : Int → Option PyCard)
    (rv : Int → List RevEntry) (sn ts : Str) (cbt : List (Tag × List PyCard))
    (hd : List (Tag × HEntry)) (t : Tag) :
    (mkTagRecord cb rv sn ts cbt hd t).timestamp = ts := rfl

theorem mkTagRecord_due (cb : Int → Option PyCard)
    (rv : Int → List RevEntry) (sn ts : Str) (cbt : List (Tag × List PyCard))
    (hd : List (Tag × HEntry)) (t : Tag) :
    (mkTagRecord cb rv sn ts cbt hd t).due_cards =
      stateCountOf cb (alGetD cbt t []) (alGet t hd)
        (fun c => decide (0 ≤ c.due) && !c.suspended) := rfl

theorem mkTagRecord_new (cb : Int → Option PyCard)
    (rv : Int → List RevEntry) (sn ts : Str) (cbt : List (Tag × List PyCard))
    (hd : List (Tag × HEntry)) (t : Tag) :
    (mkTagRecord cb rv sn ts cbt hd t).new_cards =
      stateCountOf cb (alGetD cbt t []) (alGet t hd)
        (fun c => c.reps == 0) := rfl

theorem mkTagRecord_learning (cb : Int → Option PyCard)
    (rv : Int → List RevEntry) (sn ts : Str) (cbt : List (Tag × List PyCard))
    (hd : List (Tag × HEntry)) (t : Tag) :
    (mkTagRecord cb rv sn ts cbt hd t).learning_cards =
      stateCountOf cb (alGetD cbt t []) (alGet t hd)
        (fun c => c.queue == 1) := rfl

theorem mkTagRecord_review (cb : Int → Option PyCard)
    (rv : Int → List RevEntry) (sn ts : Str) (cbt : List (Tag × List PyCard))
    (hd : List (Tag × HEntry)) (t : Tag) :
    (mkTagRecord cb rv sn ts cbt hd t).review_cards =
      stateCountOf cb (alGetD cbt t []) (alGet t hd)
        (fun c => c.queue == 2) := rfl

theorem mkTagRecord_mature (cb : Int → Option PyCard)
    (rv : Int → List RevEntry) (sn ts : Str) (cbt : List (Tag × List PyCard))
    (hd : List (Tag × HEntry)) (t : Tag) :
    (mkTagRecord cb rv sn ts cbt hd t).mature_cards =
      stateCountOf cb (alGetD cbt t []) (alGet t hd)
        (fun c => decide (21 < c.ivl)) := rfl

theorem mkTagRecord_suspended (cb : Int → Option PyCard)
    (rv : Int → List RevEntry) (sn ts : Str) (cbt : List (Tag × List PyCard))
    (hd : List (Tag × HEntry)) (t : Tag) :
    (mkTagRecord cb rv sn ts cbt hd t).suspended_cards =
      stateCountOf cb (alGetD cbt t []) (alGet t hd)
        (fun c => c.suspended) := rfl

theorem mkTagRecord_unstudied_sel (cb : Int → Option PyCard)
    (rv : Int → List RevEntry) (sn ts : Str) (cbt : List (Tag × List PyCard))
    (hd : List (Tag × HEntry)) (t : Tag) :
    (mkTagRecord cb rv sn ts cbt hd t).unstudied_cards =
      unstudiedOf cb (alGetD cbt t []) (alGet t hd) := rfl

theorem mkTagRecord_hy_total (cb : Int → Option PyCard)
    (rv : Int → List RevEntry) (sn ts : Str) (cbt : List (Tag × List PyCard))
    (hd : List (Tag × HEntry)) (t : Tag) :
    (mkTagRecord cb rv sn ts cbt hd t).high_yield_total_cards =
      (if getYieldLevel t > 0 then (alGetD cbt t []).length
       else ((List.range' 1 5).map fun l =>
        (ysAt (yieldStatsOf cb (alGetD cbt t []) (alGet t hd) t) l).total).sum) := rfl

theorem mkTagRecord_hy_new (cb : Int → Option PyCard)
    (rv : Int → List RevEntry) (sn ts : Str) (cbt : List (Tag × List PyCard))
    (hd : List (Tag × HEntry)) (t : Tag) :
    (mkTagRecord cb rv sn ts cbt hd t).high_yield_new_cards =
      (if getYieldLevel t > 0 then
        (ysAt (yieldStatsOf cb (alGetD cbt t []) (alGet t hd) t)
          (getYieldLevel t)).new
       else ((List.range' 1 5).map fun l =>
        (ysAt (yieldStatsOf cb (alGetD cbt t []) (alGet t hd) t) l).new).sum) := rfl

theorem mkTagRecord_hy_review (cb : Int → Option PyCard)
    (rv : Int → List RevEntry) (sn ts : Str) (cbt : List (Tag × List PyCard))
    (hd : List (Tag × HEntry)) (t : Tag) :
    (mkTagRecord cb rv sn ts cbt hd t).high_yield_review_cards =
      (if getYieldLevel t > 0 then
        (ysAt (yieldStatsOf cb (alGetD cbt t []) (alGet t hd) t)
          (getYieldLevel t)).review
       else ((List.range' 1 5).map fun l =>
        (ysAt (yieldStatsOf cb (alGetD cbt t []) (alGet t hd) t) l).review).sum) := rfl

theorem mkTagRecord_yield1 (cb : Int → Option PyCard)
    (rv : Int → List RevEntry) (sn ts : Str) (cbt : List (Tag × List PyCard))
    (hd : List (Tag × HEntry)) (t : Tag) :
    (mkTagRecord cb rv sn ts cbt hd t).yield_1 =
      ysAt (yieldStatsOf cb (alGetD cbt t []) (alGet t hd) t) 1 := rfl

theorem mkTagRecord_yield2 (cb : Int → Option PyCard)
    (rv : Int → List RevEntry) (sn ts : Str) (cbt : List (Tag × List PyCard))
    (hd : List (Tag × HEntry)) (t : Tag) :
    (mkTagRecord cb rv sn ts cbt hd t).yield_2 =
      ysAt (yieldStatsOf cb (alGetD cbt t []) (alGet t hd) t) 2 := rfl

theorem mkTagRecord_yield3 (cb : Int → Option PyCard)
    (rv : Int → List RevEntry) (sn ts : Str) (cbt : List (Tag × List PyCard))
    (hd : List (Tag × HEntry)) (t : Tag) :
    (mkTagRecord cb rv sn ts cbt hd t).yield_3 =
      ysAt (yieldStatsOf cb (alGetD cbt t []) (alGet t hd) t) 3 := rfl

theorem mkTagRecord_yield4 (cb : Int → Option PyCard)
    (rv : Int → List RevEntry) (sn ts : Str) (cbt : List (Tag × List PyCard))
    (hd : List (Tag × HEntry)) (t : Tag) :
    (mkTagRecord cb rv sn ts cbt hd t).yield_4 =
      ysAt (yieldStatsOf cb (alGetD cbt t []) (alGet t hd) t) 4 := rfl

theorem mkTagRecord_yield5 (cb : Int → Option PyCard)
    (rv : Int → List RevEntry) (sn ts : Str) (cbt : List (Tag × List PyCard))
    (hd : List (Tag × HEntry)) (t : Tag) :
    (mkTagRecord cb rv sn ts cbt hd t).yield_5 =
      ysAt (yieldStatsOf cb (alGetD cbt t []) (alGet t hd) t) 5 := rfl

theorem mkTagRecord_children_cards (cb : Int → Option PyCard)
    (rv : Int → List RevEntry) (sn ts : Str) (cbt : List (Tag × List PyCard))
    (hd : List (Tag × HEntry)) (t : Tag) :
    (mkTagRecord cb rv sn ts cbt hd t).children_cards =
      ((alGet t hd).map fun e => e.children_count).getD 0 := rfl

theorem mkTagRecord_children_tags (cb : Int → Option PyCard)
    (rv : Int → List RevEntry) (sn ts : Str) (cbt : List (Tag × List PyCard))
    (hd : List (Tag × HEntry)) (t : Tag) :
    (mkTagRecord cb rv sn ts cbt hd t).children_tags =
      ((alGet t hd).map fun e => e.children_tags).getD [] := rfl

theorem mkTagRecord_parent_tags (cb : Int → Option PyCard)
    (rv : Int → List RevEntry) (sn ts : Str) (cbt : List (Tag × List PyCard))
    (hd : List (Tag × HEntry)) (t : Tag) :
    (mkTagRecord cb rv sn ts cbt hd t).parent_tags =
      ((alGet t hd).map fun e => e.parent_tags).getD [] := rfl

theorem mkTagRecord_again (cb : Int → Option PyCard)
    (rv : Int → List RevEntry) (sn ts : Str) (cbt : List (Tag × List PyCard))
    (hd : List (Tag × HEntry)) (t : Tag) :
    (mkTagRecord cb rv sn ts cbt hd t).again_count =
      (revsOf rv (alGetD cbt t []) (alGet t hd)).again_count := rfl

theorem mkTagRecord_hard (cb : Int → Option PyCard)
    (rv : Int → List RevEntry) (sn ts : Str) (cbt : List (Tag × List PyCard))
    (hd : List (Tag × HEntry)) (t : Tag) :
    (mkTagRecord cb rv sn ts cbt hd t).hard_count =
      (revsOf rv (alGetD cbt t []) (alGet t hd)).hard_count := rfl

theorem mkTagRecord_good (cb : Int → Option PyCard)
    (rv : Int → List RevEntry) (sn ts : Str) (cbt : List (Tag × List PyCard))
    (hd : List (Tag × HEntry)) (t : Tag) :
    (mkTagRecord cb rv sn ts cbt hd t).good_count =
      (revsOf rv (alGetD cbt t []) (alGet t hd)).good_count := rfl

theorem mkTagRecord_easy (cb : Int → Option PyCard)
    (rv : Int → List RevEntry) (sn ts : Str) (cbt : List (Tag × List PyCard))
    (hd : List (Tag × HEntry)) (t : Tag) :
    (mkTagRecord cb rv sn ts cbt hd t).easy_count =
      (revsOf rv (alGetD cbt t []) (alGet t hd)).easy_count := rfl

theorem mkTagRecord_card_details (cb : Int → Option PyCard)
    (rv : Int → List RevEntry) (sn ts : Str) (cbt : List (Tag × List PyCard))
    (hd : List (Tag × HEntry)) (t : Tag) :
    (mkTagRecord cb rv sn ts cbt hd t).unstudied_card_details =
      cardDetailsOf (alGetD cbt t []) := rfl

theorem sp_record (cb : Int → Option PyCard) (rv : Int → List RevEntry)
    (sn ts : Str) (in1 in2 : List (Tag × List PyCard)) (h : SamePermInput in1 in2)
    (t : Tag) :
    RecCorr
      (mkTagRecord cb rv sn ts in1
        (calculateHierarchicalCounts (buildHierarchyFromCards in1)) t)
      (mkTagRecord cb rv sn ts in2
        (calculateHierarchicalCounts (buildHierarchyFromCards in2)) t) := by
  have hc : (alGetD in1 t []).Perm (alGetD in2 t []) := h.2.2.2 t
  have ho := sp_hd_ocorr in1 in2 h t
  have havgs : avgsOf cb (alGetD in1 t [])
        (alGet t (calculateHierarchicalCounts (buildHierarchyFromCards in1)))
      = avgsOf cb (alGetD in2 t [])
        (alGet t (calculateHierarchicalCounts (buildHierarchyFromCards in2))) :=
    avgsOf_corr cb _ _ _ _ hc ho
  have hrevs : revsOf rv (alGetD in1 t [])
        (alGet t (calculateHierarchicalCounts (buildHierarchyFromCards in1)))
      = revsOf rv (alGetD in2 t [])
        (alGet t (calculateHierarchicalCounts (buildHierarchyFromCards in2))) :=
    revsOf_corr rv _ _ _ _ hc ho
  have hys : yieldStatsOf cb (alGetD in1 t [])
        (alGet t (calculateHierarchicalCounts (buildHierarchyFromCards in1))) t
      = yieldStatsOf cb (alGetD in2 t [])
        (alGet t (calculateHierarchicalCounts (buildHierarchyFromCards in2))) t :=
    yieldStatsOf_corr cb _ _ _ _ t hc ho
  refine ⟨?_, ?_, ?_, ?_, ?_, ?_, ?_, ?_, ?_, ?_, ?_, ?_, ?_, ?_, ?_, ?_, ?_, ?_,
    ?_, ?_, ?_, ?_, ?_, ?_, ?_, ?_, ?_, ?_, ?_, ?_, ?_, ?_, ?_, ?_, ?_⟩
  · rw [mkTagRecord_tag_name, mkTagRecord_tag_name]
  · rw [mkTagRecord_service_name, mkTagRecord_service_name]
  · rw [mkTagRecord_total_cards, mkTagRecord_total_cards]
    exact hc.length_eq
  · rw [mkTagRecord_unique_notes, mkTagRecord_unique_notes, havgs]
  · rw [mkTagRecord_due, mkTagRecord_due]
    exact stateCountOf_corr cb _ _ _ _ _ hc ho
  · rw [mkTagRecord_new, mkTagRecord_new]
    exact stateCountOf_corr cb _ _ _ _ _ hc ho
  · rw [mkTagRecord_learning, mkTagRecord_learning]
    exact stateCountOf_corr cb _ _ _ _ _ hc ho
  · rw [mkTagRecord_review, mkTagRecord_review]
    exact stateCountOf_corr cb _ _ _ _ _ hc ho
  · rw [mkTagRecord_mature, mkTagRecord_mature]
    exact stateCountOf_corr cb _ _ _ _ _ hc ho
  · rw [mkTagRecord_suspended, mkTagRecord_suspended]
    exact stateCountOf_corr cb _ _ _ _ _ hc ho
  · rw [mkTagRecord_unstudied_sel, mkTagRecord_unstudied_sel]
    exact unstudiedOf_corr cb _ _ _ _ hc ho
  · rw [mkTagRecord_hy_total, mkTagRecord_hy_total, hys, hc.length_eq]
  · rw [mkTagRecord_hy_new, mkTagRecord_hy_new, hys]
  · rw [mkTagRecord_hy_review, mkTagRecord_hy_review, hys]
  · rw [mkTagRecord_yield1, mkTagRecord_yield1, hys]
  · rw [mkTagRecord_yield2, mkTagRecord_yield2, hys]
  · rw [mkTagRecord_yield3, mkTagRecord_yield3, hys]
  · rw [mkTagRecord_yield4, mkTagRecord_yield4, hys]
  · rw [mkTagRecord_yield5, mkTagRecord_yield5, hys]
  · rw [mkTagRecord_hier_total, mkTagRecord_hier_total, hc.length_eq]
    exact ocorr_hcount _ _ ho _
  · rw [mkTagRecord_children_cards, mkTagRecord_children_cards]
    exact ocorr_ccount _ _ ho
  · rw [mkTagRecord_children_tags, mkTagRecord_children_tags]
    exact ocorr_children _ _ ho
  · rw [mkTagRecord_parent_tags, mkTagRecord_parent_tags]
    exact ocorr_parents _ _ ho
  · rw [mkTagRecord_avg_ease, mkTagRecord_avg_ease, havgs]
  · rw [mkTagRecord_avg_interval, mkTagRecord_avg_interval, havgs]
  · rw [mkTagRecord_total_lapses, mkTagRecord_total_lapses, havgs]
  · rw [mkTagRecord_total_reviews, mkTagRecord_total_reviews, hrevs]
  · rw [mkTagRecord_total_time_ms, mkTagRecord_total_time_ms, hrevs]
  · rw [mkTagRecord_avg_time_ms, mkTagRecord_avg_time_ms, hrevs]
  · rw [mkTagRecord_again, mkTagRecord_again, hrevs]
  · rw [mkTagRecord_hard, mkTagRecord_hard, hrevs]
  · rw [mkTagRecord_good, mkTagRecord_good, hrevs]
  · rw [mkTagRecord_easy, mkTagRecord_easy, hrevs]
  · rw [mkTagRecord_card_details, mkTagRecord_card_details]
    exact cardDetailsOf_perm _ _ hc
  · rw [mkTagRecord_timestamp, mkTagRecord_timestamp]

theorem sp_tagList_perm (cb : Int → Option PyCard) (rv : Int → List RevEntry)
    (sn ts : Str) (in1 in2 : List (Tag × List PyCard)) (h : SamePermInput in1 in2) :
    ((exportPipeline cb rv sn ts in1).map TagRecord.tag_name).Perm
      ((exportPipeline cb rv sn ts in2).map TagRecord.tag_name) := by
  unfold exportPipeline createExportDataFast
  rw [List.map_map, List.map_map]
  have e1 : ∀ (inx : List (Tag × List PyCard)) (hd : List (Tag × HEntry))
      (l : List Tag),
      l.map (TagRecord.tag_name ∘ mkTagRecord cb rv sn ts inx hd) = l := by
    intro inx hd l
    induction l with
    | nil => rfl
    | cons a l ih =>
      rw [List.map_cons, ih]
      rfl
  rw [e1, e1]
  refine (List.perm_ext_iff_of_nodup
    (nodup_pyUpdate _ _ (nodup_pyUpdate _ _ List.nodup_nil))
    (nodup_pyUpdate _ _ (nodup_pyUpdate _ _ List.nodup_nil))).mpr ?_
  intro x
  rw [mem_pyUpdate, mem_pyUpdate, mem_pyUpdate, mem_pyUpdate]
  have hh : x ∈ (calculateHierarchicalCounts (buildHierarchyFromCards in1)).map
        Prod.fst ↔
      x ∈ (calculateHierarchicalCounts (buildHierarchyFromCards in2)).map
        Prod.fst := by
    rw [← alGet_isSome_iff, ← alGet_isSome_iff, sp_hd_isSome in1 in2 h x]
  exact or_congr (or_congr Iff.rfl h.2.2.1.mem_iff) hh

theorem samePerm_wIn4 : SamePermInput wIn4a wIn4b := by
  refine ⟨by decide, by decide, by decide, ?_⟩
  intro t
  show ((alGet t wIn4a).getD []).Perm ((alGet t wIn4b).getD [])
  by_cases h1 : wTagAB = t
  · rw [← h1]
    decide
  · by_cases h2 : wTagAC = t
    · rw [← h2]
      decide
    · have e1 : alGet t wIn4a = none := by
        show (if wTagAB = t then some [wCard 1]
          else if wTagAC = t then some [wCard 2] else none) = none
        rw [if_neg h1, if_neg h2]
      have e2 : alGet t wIn4b = none := by
        show (if wTagAC = t then some [wCard 2]
          else if wTagAB = t then some [wCard 1] else none) = none
        rw [if_neg h2, if_neg h1]
      rw [e1, e2]

/-- C4 counterexample: `wIn4a` and `wIn4b` are permutations of the same
tag-to-cards mapping (the two leaf tags `A::B` and `A::C` swapped), yet
the record the pipeline emits for the parent tag `A` differs between the
two runs: its `children_tags` list comes out in a different order, so the
output records are not identical field-for-field. -/
theorem C4_counterexample :
    SamePermInput wIn4a wIn4b ∧
      wRec4aA.tag_name = wRec4bA.tag_name ∧
      wRec4aA.children_tags ≠ wRec4bA.children_tags :=
  ⟨samePerm_wIn4, by decide, by decide⟩

/-- C4 (corrected): if two pipeline inputs are permutations of each other
— the same distinct tags, each mapped to a permutation of the same card
list, differing only in insertion order — then the two runs emit records
for the same set of tags, and for each tag the two records agree on every
scalar field, while the two list-valued fields (`children_tags`, read off
a Python set, and `unstudied_card_details`, derived from the card list)
agree as multisets though not necessarily in the same order (the original
claim of identical values for list-valued fields fails, see
`C4_counterexample`). -/
theorem C4_order_independence (cb : Int → Option PyCard)
    (rv : Int → List RevEntry) (sn ts : Str)
    (in1 in2 : List (Tag × List PyCard)) (h : SamePermInput in1 in2) :
    ((exportPipeline cb rv sn ts in1).map TagRecord.tag_name).Perm
        ((exportPipeline cb rv sn ts in2).map TagRecord.tag_name) ∧
      ∀ r1 ∈ exportPipeline cb rv sn ts in1,
        ∃ r2 ∈ exportPipeline cb rv sn ts in2, RecCorr r1 r2 := by
  refine ⟨sp_tagList_perm cb rv sn ts in1 in2 h, ?_⟩
  intro r1 hr1
  obtain ⟨t, ht, rfl⟩ := (mem_exportPipeline cb rv sn ts in1 r1).mp hr1
  refine ⟨mkTagRecord cb rv sn ts in2
      (calculateHierarchicalCounts (buildHierarchyFromCards in2)) t, ?_,
    sp_record cb rv sn ts in1 in2 h t⟩
  refine (mem_exportPipeline cb rv sn ts in2 _).mpr ⟨t, ?_, rfl⟩
  rw [mem_pyUpdate, mem_pyUpdate] at ht
  rw [mem_pyUpdate, mem_pyUpdate]
  rcases ht with (hnil | hk) | hh
  · exact absurd hnil (by simp)
  · exact Or.inl (Or.inr (h.2.2.1.mem_iff.mp hk))
  · refine Or.inr ?_
    rw [← alGet_isSome_iff] at hh ⊢
    rw [← sp_hd_isSome in1 in2 h t]
    exact hh

theorem C4_order_independence_witness :
    SamePermInput wIn4a wIn4b ∧
      (((exportPipeline wCb wRv [] [] wIn4a).map TagRecord.tag_name).Perm
          ((exportPipeline wCb wRv [] [] wIn4b).map TagRecord.tag_name) ∧
        ∀ r1 ∈ exportPipeline wCb wRv [] [] wIn4a,
          ∃ r2 ∈ exportPipeline wCb wRv [] [] wIn4b, RecCorr r1 r2) :=
  ⟨samePerm_wIn4, C4_order_independence wCb wRv [] [] wIn4a wIn4b samePerm_wIn4⟩
